import Mathlib

/-!
Verification development for the quizx superoptimizer rewriting core
(src/superopt/src/rewriter.rs and src/superopt/src/rewrite_sets.rs).

The diagram abstraction (quizx vec_graph), the causal-flow computation, the
pattern matcher and the JSON codec are external collaborators of this crate;
they are modelled from the specification and passed in as explicit data or
function arguments where needed.
-/

set_option linter.unusedVariables false

/-- Outcome of calling a Rust function: a normal return, a recoverable error
returned to the caller, or a process-aborting panic (assert, expect, unwrap). -/
inductive ROut (α : Type) where
  | ok : α → ROut α
  | err : String → ROut α
  | panicked : String → ROut α
deriving DecidableEq, Repr

namespace ROut

def map {α β : Type} (f : α → β) : ROut α → ROut β
  | .ok a => .ok (f a)
  | .err e => .err e
  | .panicked m => .panicked m

def bind {α β : Type} : ROut α → (α → ROut β) → ROut β
  | .ok a, f => f a
  | .err e, _ => .err e
  | .panicked m, _ => .panicked m

end ROut

/-- Vertex identifier (quizx vec_graph V = usize index). -/
abbrev V := Nat

/-- Phase label on an interior vertex; a numeric label that this crate only
copies around, never computes with. -/
abbrev Phase := Int

/-- Vertex kinds: boundary, and the two interior spider colors (quizx VType). -/
inductive VType where
  | B | Z | X
deriving DecidableEq, Repr

/-- Edge kinds: plain (N) and hadamard (H) (quizx EType). -/
inductive EType where
  | N | H
deriving DecidableEq, Repr

/-- Modelled from the spec: the diagram abstraction (an external collaborator,
quizx vec_graph) is a mutable attributed graph with vertex kinds, per-vertex
phases, edge kinds, and ordered input/output vertex lists.  Vertices are kept
as an association list from index to (kind, phase); edges as a list of
(endpoint, endpoint, kind) triples; fresh records the next unused index. -/
structure Graph where
  vdata : List (V × VType × Phase)
  edata : List (V × V × EType)
  inputs : List V
  outputs : List V
  fresh : Nat
deriving DecidableEq, Repr

/-- Lookup in an association list keyed by vertex index (HashMap access:
the most recently inserted binding for a key wins when bindings are consed). -/
def alookup {β : Type} (k : Nat) : List (Nat × β) → Option β
  | [] => none
  | (k', b) :: rest => if k' = k then some b else alookup k rest

namespace Graph

/-- Vertex indices present in the graph, in insertion order. -/
def vertexList (g : Graph) : List V := g.vdata.map (·.1)

/-- Find the data record of a vertex. -/
def vdataFind (g : Graph) (v : V) : Option (VType × Phase) :=
  alookup v g.vdata

/-- Kind of a vertex (B for an absent index; never relied upon). -/
def vertexType (g : Graph) (v : V) : VType :=
  ((g.vdataFind v).map (·.1)).getD VType.B

/-- Phase of a vertex (0 for an absent index; never relied upon). -/
def phase (g : Graph) (v : V) : Phase :=
  ((g.vdataFind v).map (·.2)).getD 0

/-- Overwrite the phase of a vertex. -/
def setPhase (g : Graph) (v : V) (ph : Phase) : Graph :=
  { g with vdata := g.vdata.map (fun e => if e.1 = v then (e.1, e.2.1, ph) else e) }

/-- Overwrite the kind of a vertex. -/
def setVertexType (g : Graph) (v : V) (ty : VType) : Graph :=
  { g with vdata := g.vdata.map (fun e => if e.1 = v then (e.1, ty, e.2.2) else e) }

/-- Remove a vertex; removal of its incident edges is implied (spec 4.4 step 2). -/
def removeVertex (g : Graph) (v : V) : Graph :=
  { g with
    vdata := g.vdata.filter (fun e => e.1 ≠ v),
    edata := g.edata.filter (fun e => e.1 ≠ v ∧ e.2.1 ≠ v) }

/-- Add a fresh vertex with the given kind and phase, returning it. -/
def addVertexWithPhase (g : Graph) (ty : VType) (ph : Phase) : Graph × V :=
  ({ g with vdata := g.vdata ++ [(g.fresh, ty, ph)], fresh := g.fresh + 1 }, g.fresh)

/-- Add a fresh vertex with the given kind and zero phase, returning it. -/
def addVertex (g : Graph) (ty : VType) : Graph × V :=
  g.addVertexWithPhase ty 0

/-- Insert an edge of the given kind without any simplification. -/
def addEdgeWithType (g : Graph) (u v : V) (ty : EType) : Graph :=
  { g with edata := g.edata ++ [(u, v, ty)] }

/-- Kind of the edge between two vertices, if one is present. -/
def edgeBetween (g : Graph) (u v : V) : Option EType :=
  (g.edata.find? (fun e => (e.1 = u ∧ e.2.1 = v) ∨ (e.1 = v ∧ e.2.1 = u))).map (·.2.2)

/-- Remove every edge between two vertices. -/
def removeEdgesBetween (g : Graph) (u v : V) : Graph :=
  { g with
    edata := g.edata.filter (fun e => ¬ ((e.1 = u ∧ e.2.1 = v) ∨ (e.1 = v ∧ e.2.1 = u))) }

/-- Modelled from the spec: the smart edge-insertion operation of the diagram
abstraction, which merges or cancels parallel edges per diagram algebra.  A
parallel pair of hadamard edges cancels (Hopf); any other parallel combination
merges into the already present edge; with no parallel edge the edge is
inserted as given.  Only the edges between the two given endpoints are
affected; vertex data is never touched. -/
def addEdgeSmart (g : Graph) (u v : V) (ty : EType) : Graph :=
  match g.edgeBetween u v with
  | none => g.addEdgeWithType u v ty
  | some ty0 => if ty0 = ty ∧ ty = EType.H then g.removeEdgesBetween u v else g

/-- Neighbors of a vertex, read off the edge list. -/
def neighbors (g : Graph) (v : V) : List V :=
  g.edata.filterMap (fun e =>
    if e.1 = v then some e.2.1 else if e.2.1 = v then some e.1 else none)

/-- Replace the ordered input list. -/
def setInputs (g : Graph) (ins : List V) : Graph := { g with inputs := ins }

/-- Replace the ordered output list. -/
def setOutputs (g : Graph) (outs : List V) : Graph := { g with outputs := outs }

/-- Well-formedness of a diagram value: vertex indices are below the fresh
counter, and every edge endpoint is a present vertex. -/
def WF (g : Graph) : Prop :=
  (∀ v ∈ g.vertexList, v < g.fresh) ∧
  (∀ e ∈ g.edata, e.1 ∈ g.vertexList ∧ e.2.1 ∈ g.vertexList)

instance (g : Graph) : Decidable g.WF := by
  unfold WF; infer_instance

/-- Edge-kind normal form (spec section 3): an edge touching a boundary vertex
is plain, an edge strictly between interior vertices is hadamard. -/
def NF (g : Graph) : Prop :=
  ∀ e ∈ g.edata,
    ((g.vertexType e.1 = VType.B ∨ g.vertexType e.2.1 = VType.B) → e.2.2 = EType.N) ∧
    (g.vertexType e.1 ≠ VType.B → g.vertexType e.2.1 ≠ VType.B → e.2.2 = EType.H)

instance (g : Graph) : Decidable g.NF := by
  unfold NF; infer_instance

end Graph

/-! Embedding of src/superopt/src/rewrite_sets.rs. -/

/-- A decoded graph with a map from serialized vertex names to indices
(rewrite_sets.rs, struct DecodedGraph). -/
structure DecodedGraph where
  g : Graph
  names : List (String × V)
deriving DecidableEq, Repr

/-- Possible input/output assignments of the boundary nodes
(rewrite_sets.rs, struct RewriteIos). -/
structure RewriteIos where
  ins : List String
  outs : List String
deriving DecidableEq, Repr

/-- Right hand side of a rewrite rule (rewrite_sets.rs, struct RewriteRhs). -/
structure RewriteRhs where
  reduction : Int
  g : DecodedGraph
  ios : List RewriteIos
  unfused : Option (List Nat)
  unfused1 : Option (List Nat)
  unfused2 : Option (List Nat)
deriving DecidableEq, Repr

/-- A rewrite rule set (rewrite_sets.rs, struct RewriteSet). -/
structure RewriteSet where
  lhs : DecodedGraph
  lhs_ios : List RewriteIos
  rhss : List RewriteRhs
deriving DecidableEq, Repr

namespace DecodedGraph

/-- Name of a vertex index (DecodedGraph::name): scans the name map and panics
when the index is not found. -/
def nameOf (d : DecodedGraph) (v : V) : ROut String :=
  match d.names.find? (fun p => p.2 = v) with
  | some p => .ok p.1
  | none => .panicked "Vertex index not found"

/-- Index of a vertex name (DecodedGraph::from_name): panics when the name is
not found. -/
def fromName (d : DecodedGraph) (n : String) : ROut V :=
  match d.names.find? (fun p => p.1 = n) with
  | some p => .ok p.2
  | none => .panicked "Vertex name not found"

/-- Modelled from the spec: decoding one embedded diagram document inside
serde deserialization (DecodedGraph::deserialize).  Extracting the string from
the outer document can fail recoverably (the question-mark propagation of the
outer deserializer error); parsing the embedded document itself is done by the
external JSON codec, modelled as the argument parse, and its failure is
unwrapped — a panic, per the unwrap in the source (TODO: error handling). -/
def deserialize (parse : String → Option (Graph × List (String × V)))
    (input : ROut String) : ROut DecodedGraph :=
  match input with
  | .ok s =>
    match parse s with
    | some (g, names) => .ok ⟨g, names⟩
    | none => .panicked "called Result::unwrap on an Err value"
  | .err e => .err e
  | .panicked m => .panicked m

end DecodedGraph

/-- Map a fallible function over a list, stopping at the first failure. -/
def mapROut {α β : Type} (f : α → ROut β) : List α → ROut (List β)
  | [] => .ok []
  | a :: rest => (f a).bind (fun b => (mapROut f rest).map (fun bs => b :: bs))

/-- Translate one boundary orientation from names to indices
(RewriteIos::translated); a missing name panics. -/
def RewriteIos.translated (ios : RewriteIos) (d : DecodedGraph) :
    ROut (List V × List V) :=
  (mapROut d.fromName ios.ins).bind (fun is =>
    (mapROut d.fromName ios.outs).map (fun os => (is, os)))

/-- Unique neighbor of a boundary node as needed by RuleSide::boundary;
defaults to 0 when the neighbor count is not one (only used under that guard). -/
def uniqueNeighbor (g : Graph) (v : V) : V := (g.neighbors v).headD 0

/-- Helper for boundaryList: walk the concatenated input and output lists. -/
def boundaryWalk (g : Graph) : List V → ROut (List V)
  | [] => .ok []
  | v :: rest =>
    match g.neighbors v with
    | [n] => (boundaryWalk g rest).map (fun ns => n :: ns)
    | _ => .panicked "Boundary node has wrong number of neighbors"

/-- The boundary nodes of a rule side (RuleSide::boundary): for each input and
then each output vertex in order, its unique neighbor; exactly_one panics
when an input or output vertex does not have exactly one neighbor. -/
def boundaryList (g : Graph) : ROut (List V) :=
  boundaryWalk g (g.inputs ++ g.outputs)

/-! Embedding of src/superopt/src/rewriter.rs. -/

/-- Modelled from the spec and the crate test: the cost delta type of the
cost module (not under src/), a signed integer whose Rust Default is zero. -/
abbrev CostDelta := Int

/-- Default value of a cost delta (Rust Default for a signed integer). -/
def defaultCostDelta : CostDelta := 0

/-- A match reported by the external matcher (quizx portmatching): the pattern
identifier, the target vertices for the pattern boundary in the pattern's
boundary order, and the target vertices for the pattern interior. -/
structure PMatch where
  pattern_id : Nat
  boundary : List V
  internal : List V
deriving DecidableEq, Repr

/-- A candidate rewrite (rewriter.rs, struct Rewrite). -/
structure Rewrite where
  lhs_boundary : List V
  rhs_boundary : List V
  lhs_internal : List V
  rhs : Graph
deriving DecidableEq, Repr

/-- Result of applying a rewrite (rewriter.rs, struct RewriteResult). -/
structure RewriteResult where
  graph : Graph
  cost_delta : CostDelta
deriving DecidableEq, Repr

/-- A registered pattern (quizx CausalPattern::new as used by the compiler):
the instantiated LHS diagram, its causal-flow certificate, and the LHS
boundary-vertex order. -/
structure CausalPattern (C : Type) where
  graph : Graph
  flow : C
  boundary : List V
deriving DecidableEq, Repr

/-- Modelled from the spec: the external matcher stores the registered
patterns; register(diagram, certificate, boundary order) returns the pattern
identifier, which is the running index of registration. -/
structure CausalMatcher (C : Type) where
  patterns : List (CausalPattern C)
deriving DecidableEq, Repr

/-- The compiled rewriter (rewriter.rs, struct CausalRewriter): the matcher,
the map from pattern identifier to RHS-group index, and the RHS groups. -/
structure CausalRewriter (C : Type) where
  matcher : CausalMatcher C
  lhs_to_rhs : List (Nat × Nat)
  all_rhs : List (List RewriteRhs)
deriving DecidableEq, Repr

/-- Lookup of the RHS alternatives of a pattern (CausalRewriter::get_rhs);
HashMap and Vec indexing panic when the key or index is absent. -/
def get_rhs {C : Type} (rw : CausalRewriter C) (pid : Nat) :
    ROut (List RewriteRhs) :=
  match alookup pid rw.lhs_to_rhs with
  | none => .panicked "key not found in lhs_to_rhs"
  | some i =>
    match rw.all_rhs[i]? with
    | none => .panicked "index out of bounds in all_rhs"
    | some l => .ok l

/-- Build the candidate rewrites of one match, one per RHS alternative
(the inner closure of get_rewrites): the RHS boundary is collected via
RuleSide::boundary, and the equal-length assertion is checked. -/
def rhsToRewrites (m : PMatch) : List RewriteRhs → ROut (List Rewrite)
  | [] => .ok []
  | rhs :: rest =>
    (boundaryList rhs.g.g).bind (fun rhs_boundary =>
      if m.boundary.length = rhs_boundary.length then
        (rhsToRewrites m rest).map
          (fun l => ⟨m.boundary, rhs_boundary, m.internal, rhs.g.g⟩ :: l)
      else .panicked "assertion failed: lhs_boundary.len() == rhs_boundary.len()")

/-- Flat-map over the matches reported by the matcher (get_rewrites body). -/
def matchesToRewrites {C : Type} (rw : CausalRewriter C) :
    List PMatch → ROut (List Rewrite)
  | [] => .ok []
  | m :: rest =>
    (get_rhs rw m.pattern_id).bind (fun rhss =>
      (rhsToRewrites m rhss).bind (fun l1 =>
        (matchesToRewrites rw rest).map (fun l2 => l1 ++ l2)))

/-- Candidate generation (CausalRewriter::get_rewrites).  The causal-flow
computation and the matcher are external collaborators passed as the
arguments f and finder; a target diagram with no causal flow hits the
expect and the call panics with the message no causal flow. -/
def get_rewrites {C : Type} (f : Graph → Option C)
    (finder : Graph → C → List PMatch) (rw : CausalRewriter C) (g : Graph) :
    ROut (List Rewrite) :=
  match f g with
  | none => .panicked "no causal flow"
  | some fl => matchesToRewrites rw (finder g fl)

/-! The graph surgery of CausalRewriter::apply_rewrite, stage by stage. -/

/-- Stage 1 and 2 of apply_rewrite: remove the internal nodes of the LHS. -/
def removeInternal (g : Graph) (vs : List V) : Graph :=
  vs.foldl Graph.removeVertex g

/-- Stage 3 of apply_rewrite, name bookkeeping: record R to L in the
replacement-to-copy vertex map (HashMap insert: newest binding wins). -/
def initNames (pairs : List (V × V)) : List (V × V) :=
  pairs.foldl (fun m lr => (lr.2, lr.1) :: m) []

/-- Stage 3 of apply_rewrite, surgery: keep each L vertex but overwrite its
phase and kind with those of its paired R vertex. -/
def spliceBoundary (rhs : Graph) (pairs : List (V × V)) (g : Graph) : Graph :=
  pairs.foldl
    (fun h lr => (h.setPhase lr.1 (rhs.phase lr.2)).setVertexType lr.1
      (rhs.vertexType lr.2)) g

/-- Stage 4 of apply_rewrite: insert the internal nodes of the RHS, skipping
vertices already mapped as boundary and vertices of boundary kind. -/
def insertInternal (rhs : Graph) : List V → Graph × List (V × V) → Graph × List (V × V)
  | [], st => st
  | r :: rest, (g, names) =>
    if (alookup r names).isSome then insertInternal rhs rest (g, names)
    else if rhs.vertexType r = VType.B then insertInternal rhs rest (g, names)
    else
      let p := g.addVertexWithPhase (rhs.vertexType r) (rhs.phase r)
      insertInternal rhs rest (p.1, (r, p.2) :: names)

/-- Stage 5 of apply_rewrite: reconnect the RHS edges whose endpoints are both
mapped, via smart insertion; unmapped-endpoint edges are skipped; the assert
demands every inserted edge kind be hadamard. -/
def reconnect (names : List (V × V)) : List (V × V × EType) → Graph → ROut Graph
  | [], g => .ok g
  | (u, v, ty) :: rest, g =>
    match alookup u names, alookup v names with
    | some u', some v' =>
      if ty = EType.H then reconnect names rest (g.addEdgeSmart u' v' ty)
      else .panicked "assertion failed: ty == EType::H"
    | _, _ => reconnect names rest g

/-- Rewrite application (CausalRewriter::apply_rewrite): clone the target,
remove the LHS interior, splice the boundary, insert the RHS interior,
reconnect the RHS edges, and report the default cost delta. -/
def apply_rewrite (rw : Rewrite) (g : Graph) : ROut RewriteResult :=
  let g1 := removeInternal g rw.lhs_internal
  let pairs := rw.lhs_boundary.zip rw.rhs_boundary
  let g2 := spliceBoundary rw.rhs pairs g1
  let st := insertInternal rw.rhs rw.rhs.vertexList (g2, initNames pairs)
  (reconnect st.2 rw.rhs.edata st.1).map (fun gf => ⟨gf, defaultCostDelta⟩)

/-- The call frame of apply_rewrite: the Rust signature takes the target by
shared reference and clones it, so the caller keeps its diagram; the pair
returned here is (the caller's diagram after the call, the callee's result). -/
def apply_rewrite_call (rw : Rewrite) (g : Graph) : Graph × ROut RewriteResult :=
  (g, apply_rewrite rw g)

/-! Rule compilation (CausalRewriter::from_rewrite_rules). -/

/-- Inner loop of from_rewrite_rules over the boundary orientations of one
rule set: translate the orientation, instantiate the LHS with its
input/output lists, demand a causal-flow certificate (expect: a missing one
panics), register the pattern, and record the pattern-to-RHS-group entry. -/
def compileOris {C : Type} (f : Graph → Option C) (lhsD : DecodedGraph)
    (bnd : List V) (rhs_idx : Nat) :
    List RewriteIos → List (CausalPattern C) → List (Nat × Nat) →
    ROut (List (CausalPattern C) × List (Nat × Nat))
  | [], pats, mp => .ok (pats, mp)
  | io :: rest, pats, mp =>
    (io.translated lhsD).bind (fun inouts =>
      let p := (lhsD.g.setInputs inouts.1).setOutputs inouts.2
      match f p with
      | none => .panicked "invalid causal flow in pattern"
      | some fl =>
        compileOris f lhsD bnd rhs_idx rest (pats ++ [⟨p, fl, bnd⟩])
          ((pats.length, rhs_idx) :: mp))

/-- Outer loop of from_rewrite_rules over the rule sets. -/
def compileSets {C : Type} (f : Graph → Option C) :
    List RewriteSet → List (CausalPattern C) → List (Nat × Nat) →
    List (List RewriteRhs) → ROut (CausalRewriter C)
  | [], pats, mp, ar => .ok ⟨⟨pats⟩, mp, ar⟩
  | rs :: rest, pats, mp, ar =>
    (boundaryList rs.lhs.g).bind (fun bnd =>
      (compileOris f rs.lhs bnd ar.length rs.lhs_ios pats mp).bind
        (fun pm => compileSets f rest pm.1 pm.2 (ar ++ [rs.rhss])))

/-- Rule compilation (CausalRewriter::from_rewrite_rules), with the external
flow computation passed as the argument f. -/
def from_rewrite_rules {C : Type} (f : Graph → Option C)
    (rules : List RewriteSet) : ROut (CausalRewriter C) :=
  compileSets f rules [] [] []

/-! Concrete fixtures used by witnesses and counterexamples. -/

/-- A small target diagram: input wire, three interior spiders in a hadamard
chain, output wire. -/
def exGraph : Graph :=
  { vdata := [(0, VType.B, 0), (1, VType.Z, 0), (2, VType.Z, 0), (3, VType.Z, 0), (4, VType.B, 0)],
    edata := [(0, 1, EType.N), (1, 2, EType.H), (2, 3, EType.H), (3, 4, EType.N)],
    inputs := [0], outputs := [4], fresh := 5 }

/-- A small replacement diagram with two boundary nodes and two interior
spiders. -/
def exRhsGraph : Graph :=
  { vdata := [(0, VType.B, 0), (1, VType.Z, 1), (2, VType.Z, 0), (3, VType.B, 0)],
    edata := [(0, 1, EType.N), (1, 2, EType.H), (2, 3, EType.N)],
    inputs := [0], outputs := [3], fresh := 4 }

/-- A candidate rewrite of exGraph: the interior spider 2 is the match
interior, spiders 1 and 3 are the spliced boundary. -/
def exRewrite : Rewrite :=
  { lhs_boundary := [1, 3], rhs_boundary := [1, 2], lhs_internal := [2], rhs := exRhsGraph }

/-- The diagram produced by applying exRewrite to exGraph. -/
def exApplied : RewriteResult :=
  { graph :=
      { vdata := [(0, VType.B, 0), (1, VType.Z, 1), (3, VType.Z, 0), (4, VType.B, 0)],
        edata := [(0, 1, EType.N), (3, 4, EType.N), (1, 3, EType.H)],
        inputs := [0], outputs := [4], fresh := 5 },
    cost_delta := 0 }

/-- A flow computation that finds no causal flow on any diagram. -/
def noFlowF : Graph → Option Unit := fun _ => none

/-- A matcher that reports no matches. -/
def emptyFinder : Graph → Unit → List PMatch := fun _ _ => []

/-- A compiled rewriter with no registered patterns. -/
def trivialRewriter : CausalRewriter Unit := ⟨⟨[]⟩, [], []⟩

/-! Claim C1. -/

/-- C1 counterexample: on a target diagram with no causal-flow certificate,
get_rewrites panics (process abort via expect) with the message no causal
flow; it does not return the condition as a recoverable error value to the
caller, contrary to the claim. -/
theorem get_rewrites_no_flow_counterexample :
    get_rewrites noFlowF emptyFinder trivialRewriter exGraph =
      .panicked "no causal flow" ∧
    ∀ s, get_rewrites noFlowF emptyFinder trivialRewriter exGraph ≠ .err s := by
  constructor
  · rfl
  · intro s h
    exact absurd h (by simp [get_rewrites, noFlowF])

/-- C1 amended: for every target diagram with no causal-flow certificate,
candidate generation (get_rewrites) panics with the message no causal flow
(the expect on the flow computation), rather than returning a recoverable
condition to the caller. -/
theorem get_rewrites_no_flow_panics {C : Type} (f : Graph → Option C)
    (finder : Graph → C → List PMatch) (rw : CausalRewriter C) (g : Graph)
    (h : f g = none) : get_rewrites f finder rw g = .panicked "no causal flow" := by
  unfold get_rewrites
  rw [h]

/-- Witness for the amended C1 theorem at a concrete diagram and flow
computation. -/
theorem get_rewrites_no_flow_panics_witness :
    noFlowF exGraph = none ∧
    get_rewrites noFlowF emptyFinder trivialRewriter exGraph =
      .panicked "no causal flow" :=
  ⟨rfl, get_rewrites_no_flow_panics noFlowF emptyFinder trivialRewriter exGraph rfl⟩

/-! Claim C3. -/

/-- C3: apply_rewrite takes the target diagram by shared reference and clones
it before any surgery; the caller's diagram after the call is the diagram
before the call, so rewrite application has value semantics. -/
theorem apply_rewrite_value_semantics (rw : Rewrite) (g : Graph) :
    (apply_rewrite_call rw g).1 = g ∧
    (apply_rewrite_call rw g).2 = apply_rewrite rw g :=
  ⟨rfl, rfl⟩

/-! Claim C6. -/

/-- Helper: mapping the result constructor over an outcome fixes the cost
delta of any successful result. -/
theorem map_mk_cost (y : ROut Graph) (res : RewriteResult)
    (h : y.map (fun gf => RewriteResult.mk gf defaultCostDelta) = .ok res) :
    res.cost_delta = defaultCostDelta := by
  cases y with
  | ok a => cases h; rfl
  | err e => cases h
  | panicked m => cases h

/-- C6: whenever apply_rewrite returns a result, the reported cost delta is
the neutral default, independent of the candidate, of the authored reduction
field of the RHS, and of the actual cost change of the substitution. -/
theorem apply_rewrite_default_cost_delta (rw : Rewrite) (g : Graph)
    (res : RewriteResult) (h : apply_rewrite rw g = .ok res) :
    res.cost_delta = defaultCostDelta :=
  map_mk_cost _ res h

/-- Witness for the C6 theorem at a concrete rewrite and target. -/
theorem apply_rewrite_default_cost_delta_witness :
    apply_rewrite exRewrite exGraph = .ok exApplied ∧
    exApplied.cost_delta = defaultCostDelta :=
  ⟨by decide, apply_rewrite_default_cost_delta exRewrite exGraph exApplied (by decide)⟩

/-! Claim C10. -/

/-- Helper for C10: the boundary walk succeeds with the unique neighbors when
every visited vertex has exactly one neighbor. -/
theorem boundaryWalk_ok (g : Graph) (l : List V)
    (h : ∀ v ∈ l, (g.neighbors v).length = 1) :
    boundaryWalk g l = .ok (l.map (uniqueNeighbor g)) := by
  induction l with
  | nil => rfl
  | cons v rest ih =>
    have hv := h v (by simp)
    match hnb : g.neighbors v with
    | [] => rw [hnb] at hv; simp at hv
    | [n] =>
      have hrest := ih (fun w hw => h w (by simp [hw]))
      simp [boundaryWalk, hnb, hrest, ROut.map, uniqueNeighbor]
    | a :: b :: t => rw [hnb] at hv; simp at hv

/-- Helper for C10: the boundary walk panics when some visited vertex does not
have exactly one neighbor. -/
theorem boundaryWalk_panics (g : Graph) (l : List V)
    (h : ∃ v ∈ l, (g.neighbors v).length ≠ 1) :
    boundaryWalk g l = .panicked "Boundary node has wrong number of neighbors" := by
  induction l with
  | nil => simp at h
  | cons v rest ih =>
    obtain ⟨w, hw, hne⟩ := h
    match hnb : g.neighbors v with
    | [] => simp [boundaryWalk, hnb]
    | [n] =>
      rcases List.mem_cons.mp hw with h1 | h1
      · subst h1; rw [hnb] at hne; simp at hne
      · have := ih ⟨w, h1, hne⟩
        simp [boundaryWalk, hnb, this, ROut.map]
    | a :: b :: t => simp [boundaryWalk, hnb]

/-- C10: the boundary operation of a rule side returns, for each input vertex
and then each output vertex in order, that vertex's unique neighbor (not the
input/output vertex itself, absent self-loops), and panics when some input or
output vertex does not have exactly one neighbor. -/
theorem boundaryList_spec (g : Graph) :
    ((∀ v ∈ g.inputs ++ g.outputs, (g.neighbors v).length = 1) →
       boundaryList g = .ok ((g.inputs ++ g.outputs).map (uniqueNeighbor g))) ∧
    ((∃ v ∈ g.inputs ++ g.outputs, (g.neighbors v).length ≠ 1) →
       boundaryList g = .panicked "Boundary node has wrong number of neighbors") ∧
    (∀ v ∈ g.inputs ++ g.outputs,
       (g.neighbors v).length = 1 → v ∉ g.neighbors v → uniqueNeighbor g v ≠ v) := by
  refine ⟨fun h => boundaryWalk_ok g _ h, fun h => boundaryWalk_panics g _ h, ?_⟩
  intro v _ hlen hself
  match hnb : g.neighbors v with
  | [] => rw [hnb] at hlen; simp at hlen
  | [n] =>
    simp only [uniqueNeighbor, hnb, List.headD]
    intro hEq
    subst hEq
    exact hself (by rw [hnb]; simp)
  | a :: b :: t => rw [hnb] at hlen; simp at hlen

/-- Witness for the C10 theorem at a concrete rule-side diagram. -/
theorem boundaryList_spec_witness :
    ((∀ v ∈ exRhsGraph.inputs ++ exRhsGraph.outputs,
        (exRhsGraph.neighbors v).length = 1) ∧
      boundaryList exRhsGraph =
        .ok ((exRhsGraph.inputs ++ exRhsGraph.outputs).map (uniqueNeighbor exRhsGraph))) :=
  ⟨by decide, (boundaryList_spec exRhsGraph).1 (by decide)⟩

/-! Claim C7. -/

/-- A JSON parser for embedded diagram documents that rejects every input,
standing for a malformed document. -/
def failParse : String → Option (Graph × List (String × V)) := fun _ => none

/-- A rule set whose single boundary orientation is well named but whose
instantiated LHS will be given no causal-flow certificate. -/
def exRuleSet : RewriteSet :=
  { lhs := ⟨exRhsGraph, [("i", 0), ("o", 3)]⟩,
    lhs_ios := [⟨["i"], ["o"]⟩],
    rhss := [] }

/-- C7 counterexample: a malformed embedded diagram document makes
deserialization panic (the unwrap flagged TODO in the source), and a boundary
orientation with no causal-flow certificate makes from_rewrite_rules panic;
neither failure is returned as a recoverable error value, contrary to the
claim. -/
theorem load_time_failure_counterexample :
    (DecodedGraph.deserialize failParse (.ok "not a graph document") =
        .panicked "called Result::unwrap on an Err value" ∧
      ∀ s, DecodedGraph.deserialize failParse (.ok "not a graph document") ≠ .err s) ∧
    (from_rewrite_rules noFlowF [exRuleSet] =
        .panicked "invalid causal flow in pattern" ∧
      ∀ s, from_rewrite_rules noFlowF [exRuleSet] ≠ .err s) := by
  refine ⟨⟨by decide, ?_⟩, ⟨by decide, ?_⟩⟩
  · intro s h
    have hx : DecodedGraph.deserialize failParse (.ok "not a graph document") =
        .panicked "called Result::unwrap on an Err value" := by decide
    rw [hx] at h
    exact ROut.noConfusion h
  · intro s h
    have hx : from_rewrite_rules noFlowF [exRuleSet] =
        .panicked "invalid causal flow in pattern" := by decide
    rw [hx] at h
    exact ROut.noConfusion h

/-- C7 amended: both load-time configuration failures abort the process
instead of surfacing recoverable errors: decoding a malformed embedded
diagram document panics on the unwrapped parse result, and a boundary
orientation whose instantiated LHS diagram has no causal-flow certificate
makes from_rewrite_rules panic with the message invalid causal flow in
pattern; neither identifies the offending rule set or orientation. -/
theorem load_time_failures_panic {C : Type}
    (parse : String → Option (Graph × List (String × V))) (s : String)
    (hp : parse s = none)
    (f : Graph → Option C) (rs : RewriteSet) (rest : List RewriteSet)
    (bnd : List V) (io : RewriteIos) (oris : List RewriteIos) (ins outs : List V)
    (hb : boundaryList rs.lhs.g = .ok bnd)
    (hios : rs.lhs_ios = io :: oris)
    (ht : io.translated rs.lhs = .ok (ins, outs))
    (hf : f ((rs.lhs.g.setInputs ins).setOutputs outs) = none) :
    DecodedGraph.deserialize parse (.ok s) =
      .panicked "called Result::unwrap on an Err value" ∧
    from_rewrite_rules f (rs :: rest) =
      .panicked "invalid causal flow in pattern" := by
  constructor
  · simp [DecodedGraph.deserialize, hp]
  · unfold from_rewrite_rules compileSets
    rw [hb, hios]
    simp only [ROut.bind]
    unfold compileOris
    rw [ht]
    simp only [ROut.bind, hf]

/-- Witness for the amended C7 theorem at concrete inputs. -/
theorem load_time_failures_panic_witness :
    DecodedGraph.deserialize failParse (.ok "x") =
      .panicked "called Result::unwrap on an Err value" ∧
    from_rewrite_rules noFlowF [exRuleSet] =
      .panicked "invalid causal flow in pattern" :=
  load_time_failures_panic failParse "x" rfl noFlowF exRuleSet []
    [1, 2] ⟨["i"], ["o"]⟩ [] [0] [3] (by decide) rfl (by decide) rfl


/-! Association-list facts used by the surgery lemmas. -/

theorem alookup_cons {β : Type} (k' : Nat) (b : β) (rest : List (Nat × β)) (k : Nat) :
    alookup k ((k', b) :: rest) = if k' = k then some b else alookup k rest := rfl

theorem alookup_filter_ne {β : Type} (l : List (Nat × β)) (v w : Nat) (hne : w ≠ v) :
    alookup w (l.filter (fun e => e.1 ≠ v)) = alookup w l := by
  simp only [ne_eq, decide_not]
  induction l with
  | nil => rfl
  | cons e rest ih =>
    obtain ⟨k, b⟩ := e
    have hvw : ¬ (v = w) := fun h => hne h.symm
    by_cases h1 : k = v
    · subst h1
      simp [List.filter_cons, alookup_cons, hvw]
      exact ih
    · by_cases h2 : k = w
      · subst h2
        simp [List.filter_cons, alookup_cons, h1]
      · simp [List.filter_cons, alookup_cons, h1, h2]
        exact ih

theorem alookup_append_ne {β : Type} (l : List (Nat × β)) (k w : Nat) (b : β)
    (hne : w ≠ k) : alookup w (l ++ [(k, b)]) = alookup w l := by
  have hkw : ¬ (k = w) := fun h => hne h.symm
  induction l with
  | nil => simp [alookup, alookup_cons, hkw]
  | cons e rest ih =>
    obtain ⟨k', b'⟩ := e
    by_cases h2 : k' = w
    · simp [alookup_cons, h2]
    · simp [alookup_cons, h2, ih]

theorem alookup_isSome_iff_mem {β : Type} (l : List (Nat × β)) (w : Nat) :
    (alookup w l).isSome ↔ w ∈ l.map (·.1) := by
  induction l with
  | nil => simp [alookup]
  | cons e rest ih =>
    obtain ⟨k, b⟩ := e
    by_cases h : k = w
    · simp [alookup_cons, h]
    · have hwk : ¬ (w = k) := fun hh => h hh.symm
      simp [alookup_cons, h, ih, hwk]

theorem alookup_mem {β : Type} (l : List (Nat × β)) (w : Nat) (b : β)
    (h : alookup w l = some b) : (w, b) ∈ l := by
  induction l with
  | nil => exact absurd h (by simp [alookup])
  | cons e rest ih =>
    obtain ⟨k, b'⟩ := e
    by_cases h1 : k = w
    · rw [alookup_cons] at h
      simp [h1] at h
      subst h1
      subst h
      exact List.mem_cons_self _ _
    · rw [alookup_cons] at h
      simp [h1] at h
      exact List.mem_cons_of_mem _ (ih h)

theorem alookup_modify_ne {β : Type} (l : List (Nat × β)) (v w : Nat)
    (f : Nat × β → β) (hne : w ≠ v) :
    alookup w (l.map (fun e => if e.1 = v then (e.1, f e) else e)) = alookup w l := by
  induction l with
  | nil => rfl
  | cons e rest ih =>
    obtain ⟨k, b⟩ := e
    by_cases h1 : k = v
    · subst h1
      have hkw : ¬ (k = w) := fun h => hne h.symm
      simp [List.map_cons, alookup_cons, hkw]
      exact ih
    · by_cases h2 : k = w
      · subst h2
        simp [List.map_cons, alookup_cons, h1]
      · simp [List.map_cons, alookup_cons, h1, h2]
        exact ih

/-! Vertex-data lemmas for the surgery stages. -/

/-- Equal data records give equal vertex kinds. -/
theorem vertexType_congr {g g' : Graph} {w : V}
    (h : g.vdataFind w = g'.vdataFind w) : g.vertexType w = g'.vertexType w := by
  unfold Graph.vertexType
  rw [h]

/-- Equal data records give equal phases. -/
theorem phase_congr {g g' : Graph} {w : V}
    (h : g.vdataFind w = g'.vdataFind w) : g.phase w = g'.phase w := by
  unfold Graph.phase
  rw [h]

/-- Removing one vertex leaves the data of any other vertex unchanged. -/
theorem removeVertex_vdataFind (g : Graph) (v w : V) (hne : w ≠ v) :
    (g.removeVertex v).vdataFind w = g.vdataFind w :=
  alookup_filter_ne g.vdata v w hne

/-- Removing the interior set leaves the data of any outside vertex unchanged. -/
theorem removeInternal_vdataFind (g : Graph) (vs : List V) (w : V)
    (hw : w ∉ vs) : (removeInternal g vs).vdataFind w = g.vdataFind w := by
  induction vs generalizing g with
  | nil => rfl
  | cons v rest ih =>
    have h1 : w ≠ v := fun hh => hw (by rw [hh]; simp)
    have h2 : w ∉ rest := fun hh => hw (by simp [hh])
    calc (removeInternal (g.removeVertex v) rest).vdataFind w
        = (g.removeVertex v).vdataFind w := ih (g.removeVertex v) h2
      _ = g.vdataFind w := removeVertex_vdataFind g v w h1

/-- Edge-list membership survives the removal of a vertex that is not an
endpoint. -/
theorem removeVertex_edata_mem (g : Graph) (v a b : V) (t : EType)
    (h : (a, b, t) ∈ g.edata) (ha : a ≠ v) (hb : b ≠ v) :
    (a, b, t) ∈ (g.removeVertex v).edata := by
  unfold Graph.removeVertex
  simp only [List.mem_filter]
  exact ⟨h, by simp [ha, hb]⟩

/-- Edge-list membership survives removal of the whole interior set when
neither endpoint is in it. -/
theorem removeInternal_edata_mem (g : Graph) (vs : List V) (a b : V) (t : EType)
    (h : (a, b, t) ∈ g.edata) (ha : a ∉ vs) (hb : b ∉ vs) :
    (a, b, t) ∈ (removeInternal g vs).edata := by
  induction vs generalizing g with
  | nil => exact h
  | cons v rest ih =>
    have ha1 : a ≠ v := fun hh => ha (by rw [hh]; simp)
    have hb1 : b ≠ v := fun hh => hb (by rw [hh]; simp)
    exact ih (g.removeVertex v) (removeVertex_edata_mem g v a b t h ha1 hb1)
      (fun hh => ha (by simp [hh])) (fun hh => hb (by simp [hh]))

/-- Removal does not touch the fresh counter. -/
theorem removeInternal_fresh (g : Graph) (vs : List V) :
    (removeInternal g vs).fresh = g.fresh := by
  induction vs generalizing g with
  | nil => rfl
  | cons v rest ih => exact ih (g.removeVertex v)

/-- Membership in the vertex list after a removal. -/
theorem removeVertex_vertexList_mem (g : Graph) (v w : V) :
    w ∈ (g.removeVertex v).vertexList ↔ w ∈ g.vertexList ∧ w ≠ v := by
  unfold Graph.removeVertex Graph.vertexList
  simp only [List.mem_map, List.mem_filter]
  constructor
  · rintro ⟨e, ⟨he, hp⟩, hk⟩
    simp at hp
    refine ⟨⟨e, he, hk⟩, ?_⟩
    rw [← hk]
    exact hp
  · rintro ⟨⟨e, he, hk⟩, hne⟩
    refine ⟨e, ⟨he, ?_⟩, hk⟩
    rw [hk] at *
    simp [hne]

/-- Removal preserves well-formedness. -/
theorem removeVertex_WF (g : Graph) (v : V) (h : g.WF) : (g.removeVertex v).WF := by
  obtain ⟨h1, h2⟩ := h
  constructor
  · intro w hw
    rw [removeVertex_vertexList_mem] at hw
    exact h1 w hw.1
  · intro e he
    unfold Graph.removeVertex at he
    simp only [List.mem_filter] at he
    obtain ⟨he, hp⟩ := he
    simp at hp
    rw [removeVertex_vertexList_mem, removeVertex_vertexList_mem]
    exact ⟨⟨(h2 e he).1, hp.1⟩, ⟨(h2 e he).2, hp.2⟩⟩

/-- Removal of the interior set preserves well-formedness. -/
theorem removeInternal_WF (g : Graph) (vs : List V) (h : g.WF) :
    (removeInternal g vs).WF := by
  induction vs generalizing g with
  | nil => exact h
  | cons v rest ih => exact ih (g.removeVertex v) (removeVertex_WF g v h)

/-- Removal preserves the edge-kind normal form. -/
theorem removeVertex_NF (g : Graph) (v : V) (h : g.NF) : (g.removeVertex v).NF := by
  intro e he
  unfold Graph.removeVertex at he
  simp only [List.mem_filter] at he
  obtain ⟨he, hp⟩ := he
  simp at hp
  have t1 := vertexType_congr (removeVertex_vdataFind g v e.1 hp.1)
  have t2 := vertexType_congr (removeVertex_vdataFind g v e.2.1 hp.2)
  rw [t1, t2]
  exact h e he

/-- Removal of the interior set preserves the edge-kind normal form. -/
theorem removeInternal_NF (g : Graph) (vs : List V) (h : g.NF) :
    (removeInternal g vs).NF := by
  induction vs generalizing g with
  | nil => exact h
  | cons v rest ih => exact ih (g.removeVertex v) (removeVertex_NF g v h)

/-! Splice-stage lemmas. -/

/-- Lookup at the modified key returns the modified value. -/
theorem alookup_modify_self {β : Type} (l : List (Nat × β)) (v : Nat)
    (f : Nat × β → β) :
    alookup v (l.map (fun e => if e.1 = v then (e.1, f e) else e)) =
      (alookup v l).map (fun b => f (v, b)) := by
  induction l with
  | nil => rfl
  | cons e rest ih =>
    obtain ⟨k, b⟩ := e
    by_cases h1 : k = v
    · subst h1
      simp [List.map_cons, alookup_cons]
    · simp [List.map_cons, alookup_cons, h1]
      exact ih

/-- Lookup of a key absent from the prefix finds the appended entry. -/
theorem alookup_append_self {β : Type} (l : List (Nat × β)) (k : Nat) (b : β)
    (h : k ∉ l.map (·.1)) : alookup k (l ++ [(k, b)]) = some b := by
  induction l with
  | nil => simp [alookup, alookup_cons]
  | cons e rest ih =>
    obtain ⟨k', b'⟩ := e
    have h1 : ¬ (k' = k) := fun hh => h (by simp [hh])
    simp only [List.cons_append, alookup_cons, h1, if_false]
    exact ih (fun hh => h (by simp [hh]))

/-- Setting a phase does not change the kind of any vertex. -/
theorem setPhase_vertexType (g : Graph) (v : V) (ph : Phase) (w : V) :
    (g.setPhase v ph).vertexType w = g.vertexType w := by
  by_cases h : w = v
  · subst h
    unfold Graph.vertexType Graph.vdataFind Graph.setPhase
    rw [alookup_modify_self g.vdata w (fun e => (e.2.1, ph))]
    cases alookup w g.vdata <;> rfl
  · exact vertexType_congr (alookup_modify_ne g.vdata v w _ h)

/-- Setting a phase does not change the data of other vertices. -/
theorem setPhase_vdataFind_ne (g : Graph) (v : V) (ph : Phase) (w : V)
    (h : w ≠ v) : (g.setPhase v ph).vdataFind w = g.vdataFind w :=
  alookup_modify_ne g.vdata v w _ h

/-- Setting a kind does not change the data of other vertices. -/
theorem setVertexType_vdataFind_ne (g : Graph) (v : V) (ty : VType) (w : V)
    (h : w ≠ v) : (g.setVertexType v ty).vdataFind w = g.vdataFind w :=
  alookup_modify_ne g.vdata v w _ h

/-- Setting the kind of a present vertex sets it. -/
theorem setVertexType_vertexType_self (g : Graph) (v : V) (ty : VType)
    (h : (g.vdataFind v).isSome) : (g.setVertexType v ty).vertexType v = ty := by
  unfold Graph.vertexType Graph.vdataFind Graph.setVertexType
  rw [alookup_modify_self g.vdata v (fun e => (ty, e.2.2))]
  unfold Graph.vdataFind at h
  cases hf : alookup v g.vdata with
  | none => rw [hf] at h; exact absurd h (by simp)
  | some b => rfl

/-- A vertex of non-boundary kind is present. -/
theorem present_of_vertexType_ne_B (g : Graph) (v : V)
    (h : g.vertexType v ≠ VType.B) : (g.vdataFind v).isSome := by
  unfold Graph.vertexType at h
  cases hf : g.vdataFind v with
  | none => rw [hf] at h; exact absurd rfl h
  | some b => simp

/-- The splice stage does not change the edge list. -/
theorem spliceBoundary_edata (rhs : Graph) (pairs : List (V × V)) (g : Graph) :
    (spliceBoundary rhs pairs g).edata = g.edata := by
  induction pairs generalizing g with
  | nil => rfl
  | cons p rest ih => exact ih _

/-- The splice stage does not change the fresh counter. -/
theorem spliceBoundary_fresh (rhs : Graph) (pairs : List (V × V)) (g : Graph) :
    (spliceBoundary rhs pairs g).fresh = g.fresh := by
  induction pairs generalizing g with
  | nil => rfl
  | cons p rest ih => exact ih _

/-- Setting a phase keeps the vertex list. -/
theorem setPhase_vertexList (g : Graph) (v : V) (ph : Phase) :
    (g.setPhase v ph).vertexList = g.vertexList := by
  unfold Graph.setPhase Graph.vertexList
  simp only [List.map_map]
  apply List.map_congr_left
  intro e he
  by_cases h : e.1 = v <;> simp [h]

/-- Setting a kind keeps the vertex list. -/
theorem setVertexType_vertexList (g : Graph) (v : V) (ty : VType) :
    (g.setVertexType v ty).vertexList = g.vertexList := by
  unfold Graph.setVertexType Graph.vertexList
  simp only [List.map_map]
  apply List.map_congr_left
  intro e he
  by_cases h : e.1 = v <;> simp [h]

/-- The splice stage keeps the vertex list. -/
theorem spliceBoundary_vertexList (rhs : Graph) (pairs : List (V × V)) (g : Graph) :
    (spliceBoundary rhs pairs g).vertexList = g.vertexList := by
  induction pairs generalizing g with
  | nil => rfl
  | cons p rest ih =>
    rw [show spliceBoundary rhs (p :: rest) g = spliceBoundary rhs rest
      ((g.setPhase p.1 (rhs.phase p.2)).setVertexType p.1 (rhs.vertexType p.2)) from rfl,
      ih, setVertexType_vertexList, setPhase_vertexList]

/-- The splice stage preserves well-formedness. -/
theorem spliceBoundary_WF (rhs : Graph) (pairs : List (V × V)) (g : Graph)
    (h : g.WF) : (spliceBoundary rhs pairs g).WF := by
  obtain ⟨h1, h2⟩ := h
  constructor
  · intro w hw
    rw [spliceBoundary_vertexList] at hw
    rw [spliceBoundary_fresh]
    exact h1 w hw
  · intro e he
    rw [spliceBoundary_edata] at he
    rw [spliceBoundary_vertexList]
    exact h2 e he

/-- The splice stage does not change the data of unspliced vertices. -/
theorem spliceBoundary_vdataFind_ne (rhs : Graph) (pairs : List (V × V))
    (g : Graph) (w : V) (hw : ∀ p ∈ pairs, w ≠ p.1) :
    (spliceBoundary rhs pairs g).vdataFind w = g.vdataFind w := by
  induction pairs generalizing g with
  | nil => rfl
  | cons p rest ih =>
    have hterm := ih ((g.setPhase p.1 (rhs.phase p.2)).setVertexType p.1 (rhs.vertexType p.2))
      (fun q hq => hw q (List.mem_cons_of_mem _ hq))
    rw [show spliceBoundary rhs (p :: rest) g =
      spliceBoundary rhs rest ((g.setPhase p.1 (rhs.phase p.2)).setVertexType p.1
        (rhs.vertexType p.2)) from rfl, hterm,
      setVertexType_vdataFind_ne _ _ _ _ (hw p (by simp)),
      setPhase_vdataFind_ne _ _ _ _ (hw p (by simp))]

/-- The splice stage does not create or destroy boundary-kind vertices when
every spliced vertex is interior before and is given an interior kind. -/
theorem spliceBoundary_B_iff (rhs : Graph) (pairs : List (V × V)) (g : Graph)
    (h1 : ∀ p ∈ pairs, g.vertexType p.1 ≠ VType.B)
    (h2 : ∀ p ∈ pairs, rhs.vertexType p.2 ≠ VType.B) (w : V) :
    ((spliceBoundary rhs pairs g).vertexType w = VType.B ↔
      g.vertexType w = VType.B) := by
  induction pairs generalizing g with
  | nil => exact Iff.rfl
  | cons p rest ih =>
    have hpg : g.vertexType p.1 ≠ VType.B := h1 p (by simp)
    have hpr : rhs.vertexType p.2 ≠ VType.B := h2 p (by simp)
    have hpres : ((g.setPhase p.1 (rhs.phase p.2)).vdataFind p.1).isSome := by
      apply present_of_vertexType_ne_B
      rw [setPhase_vertexType]
      exact hpg
    have hstep : ∀ x, (((g.setPhase p.1 (rhs.phase p.2)).setVertexType p.1
        (rhs.vertexType p.2)).vertexType x = VType.B ↔ g.vertexType x = VType.B) := by
      intro x
      by_cases hx : x = p.1
      · subst hx
        rw [setVertexType_vertexType_self _ _ _ hpres]
        exact ⟨fun hh => absurd hh hpr, fun hh => absurd hh hpg⟩
      · rw [vertexType_congr (setVertexType_vdataFind_ne _ _ _ _ hx),
          setPhase_vertexType]
    have hlift1 : ∀ q ∈ rest, ((g.setPhase p.1 (rhs.phase p.2)).setVertexType p.1
        (rhs.vertexType p.2)).vertexType q.1 ≠ VType.B := by
      intro q hq hB
      exact h1 q (List.mem_cons_of_mem _ hq) ((hstep q.1).mp hB)
    have := ih ((g.setPhase p.1 (rhs.phase p.2)).setVertexType p.1 (rhs.vertexType p.2))
      hlift1 (fun q hq => h2 q (List.mem_cons_of_mem _ hq))
    rw [show spliceBoundary rhs (p :: rest) g =
      spliceBoundary rhs rest ((g.setPhase p.1 (rhs.phase p.2)).setVertexType p.1
        (rhs.vertexType p.2)) from rfl]
    rw [this]
    exact hstep w

/-- The splice stage preserves the edge-kind normal form when every spliced
vertex is interior before the splice and receives an interior kind. -/
theorem spliceBoundary_NF (rhs : Graph) (pairs : List (V × V)) (g : Graph)
    (hnf : g.NF)
    (h1 : ∀ p ∈ pairs, g.vertexType p.1 ≠ VType.B)
    (h2 : ∀ p ∈ pairs, rhs.vertexType p.2 ≠ VType.B) :
    (spliceBoundary rhs pairs g).NF := by
  intro e he
  rw [spliceBoundary_edata] at he
  have i1 := spliceBoundary_B_iff rhs pairs g h1 h2 e.1
  have i2 := spliceBoundary_B_iff rhs pairs g h1 h2 e.2.1
  obtain ⟨c1, c2⟩ := hnf e he
  constructor
  · intro hB
    apply c1
    rcases hB with hB | hB
    · exact Or.inl (i1.mp hB)
    · exact Or.inr (i2.mp hB)
  · intro hn1 hn2
    exact c2 (fun hh => hn1 (i1.mpr hh)) (fun hh => hn2 (i2.mpr hh))

/-! Insert-stage lemmas. -/

/-- Adding a fresh vertex preserves well-formedness. -/
theorem addVertexWithPhase_WF (g : Graph) (ty : VType) (ph : Phase)
    (h : g.WF) : (g.addVertexWithPhase ty ph).1.WF := by
  obtain ⟨h1, h2⟩ := h
  constructor
  · intro w hw
    unfold Graph.addVertexWithPhase Graph.vertexList at hw
    simp at hw
    rcases hw with hw | hw
    · exact Nat.lt_succ_of_lt (h1 w (by unfold Graph.vertexList; simp [hw]))
    · simp [Graph.addVertexWithPhase, hw]
  · intro e he
    have := h2 e he
    unfold Graph.addVertexWithPhase Graph.vertexList
    simp
    unfold Graph.vertexList at this
    simp at this
    exact ⟨Or.inl this.1, Or.inl this.2⟩

/-- Adding a fresh vertex does not change the data of existing indices. -/
theorem addVertexWithPhase_vdataFind_lt (g : Graph) (ty : VType) (ph : Phase)
    (w : V) (hw : w < g.fresh) :
    (g.addVertexWithPhase ty ph).1.vdataFind w = g.vdataFind w :=
  alookup_append_ne g.vdata g.fresh w _ (Nat.ne_of_lt hw)

/-- The data of the added vertex is as given. -/
theorem addVertexWithPhase_vertexType_fresh (g : Graph) (ty : VType) (ph : Phase)
    (h : g.WF) : (g.addVertexWithPhase ty ph).1.vertexType g.fresh = ty := by
  have hnot : g.fresh ∉ g.vdata.map (·.1) := by
    intro hmem
    exact absurd (h.1 g.fresh hmem) (lt_irrefl _)
  unfold Graph.vertexType Graph.vdataFind Graph.addVertexWithPhase
  simp only
  rw [alookup_append_self g.vdata g.fresh _ hnot]
  rfl

/-- The insert stage does not change the edge list. -/
theorem insertInternal_edata (rhs : Graph) (l : List V) (g : Graph)
    (names : List (V × V)) :
    (insertInternal rhs l (g, names)).1.edata = g.edata := by
  induction l generalizing g names with
  | nil => rfl
  | cons r rest ih =>
    unfold insertInternal
    by_cases h1 : (alookup r names).isSome
    · simp only [h1, if_true]
      exact ih g names
    · simp only [h1, Bool.false_eq_true, if_false]
      by_cases h2 : rhs.vertexType r = VType.B
      · simp only [h2, if_true]
        exact ih g names
      · simp only [h2, if_false]
        exact ih _ _

/-- The insert stage only increases the fresh counter. -/
theorem insertInternal_fresh_mono (rhs : Graph) (l : List V) (g : Graph)
    (names : List (V × V)) :
    g.fresh ≤ (insertInternal rhs l (g, names)).1.fresh := by
  induction l generalizing g names with
  | nil => exact le_refl _
  | cons r rest ih =>
    unfold insertInternal
    by_cases h1 : (alookup r names).isSome
    · simp only [h1, if_true]
      exact ih g names
    · simp only [h1, Bool.false_eq_true, if_false]
      by_cases h2 : rhs.vertexType r = VType.B
      · simp only [h2, if_true]
        exact ih g names
      · simp only [h2, if_false]
        have hstep := ih (g.addVertexWithPhase (rhs.vertexType r) (rhs.phase r)).1
          ((r, (g.addVertexWithPhase (rhs.vertexType r) (rhs.phase r)).2) :: names)
        exact le_trans (Nat.le_succ g.fresh) hstep

/-- The insert stage does not change the data of previously existing indices. -/
theorem insertInternal_vdataFind_lt (rhs : Graph) (l : List V) (g : Graph)
    (names : List (V × V)) (w : V) (hw : w < g.fresh) :
    (insertInternal rhs l (g, names)).1.vdataFind w = g.vdataFind w := by
  induction l generalizing g names with
  | nil => rfl
  | cons r rest ih =>
    unfold insertInternal
    by_cases h1 : (alookup r names).isSome
    · simp only [h1, if_true]
      exact ih g names hw
    · simp only [h1, Bool.false_eq_true, if_false]
      by_cases h2 : rhs.vertexType r = VType.B
      · simp only [h2, if_true]
        exact ih g names hw
      · simp only [h2, if_false]
        rw [ih _ _ (Nat.lt_succ_of_lt hw)]
        exact addVertexWithPhase_vdataFind_lt g _ _ w hw

/-- Every binding present after the insert stage is either an initial binding
or maps to a newly created index. -/
theorem insertInternal_names_sub (rhs : Graph) (l : List V) (g : Graph)
    (names : List (V × V)) :
    ∀ p ∈ (insertInternal rhs l (g, names)).2, p ∈ names ∨ g.fresh ≤ p.2 := by
  induction l generalizing g names with
  | nil => exact fun p hp => Or.inl hp
  | cons r rest ih =>
    intro p hp
    unfold insertInternal at hp
    by_cases h1 : (alookup r names).isSome
    · simp only [h1, if_true] at hp
      exact ih g names p hp
    · simp only [h1, Bool.false_eq_true, if_false] at hp
      by_cases h2 : rhs.vertexType r = VType.B
      · simp only [h2, if_true] at hp
        exact ih g names p hp
      · simp only [h2, if_false] at hp
        rcases ih _ _ p hp with hin | hge
        · rcases List.mem_cons.mp hin with hh | hh
          · right
            rw [hh]
            exact Nat.le_refl g.fresh
          · exact Or.inl hh
        · right
          exact le_trans (Nat.le_succ _) hge

/-- The insert stage preserves well-formedness. -/
theorem insertInternal_WF (rhs : Graph) (l : List V) (g : Graph)
    (names : List (V × V)) (h : g.WF) :
    (insertInternal rhs l (g, names)).1.WF := by
  induction l generalizing g names with
  | nil => exact h
  | cons r rest ih =>
    unfold insertInternal
    by_cases h1 : (alookup r names).isSome
    · simp only [h1, if_true]
      exact ih g names h
    · simp only [h1, Bool.false_eq_true, if_false]
      by_cases h2 : rhs.vertexType r = VType.B
      · simp only [h2, if_true]
        exact ih g names h
      · simp only [h2, if_false]
        exact ih _ _ (addVertexWithPhase_WF g _ _ h)

/-- The insert stage preserves the edge-kind normal form. -/
theorem insertInternal_NF (rhs : Graph) (l : List V) (g : Graph)
    (names : List (V × V)) (hwf : g.WF) (hnf : g.NF) :
    (insertInternal rhs l (g, names)).1.NF := by
  intro e he
  rw [insertInternal_edata] at he
  have hlt1 : e.1 < g.fresh := hwf.1 e.1 (hwf.2 e he).1
  have hlt2 : e.2.1 < g.fresh := hwf.1 e.2.1 (hwf.2 e he).2
  rw [vertexType_congr (insertInternal_vdataFind_lt rhs l g names e.1 hlt1),
    vertexType_congr (insertInternal_vdataFind_lt rhs l g names e.2.1 hlt2)]
  exact hnf e he

/-- After the insert stage, every binding maps to a vertex of interior kind,
provided the initial bindings do. -/
theorem insertInternal_inv (rhs : Graph) (l : List V) (g : Graph)
    (names : List (V × V)) (hwf : g.WF)
    (hinv : ∀ p ∈ names, g.vertexType p.2 ≠ VType.B) :
    ∀ p ∈ (insertInternal rhs l (g, names)).2,
      (insertInternal rhs l (g, names)).1.vertexType p.2 ≠ VType.B := by
  induction l generalizing g names with
  | nil => exact hinv
  | cons r rest ih =>
    unfold insertInternal
    by_cases h1 : (alookup r names).isSome
    · simp only [h1, if_true]
      exact ih g names hwf hinv
    · simp only [h1, Bool.false_eq_true, if_false]
      by_cases h2 : rhs.vertexType r = VType.B
      · simp only [h2, if_true]
        exact ih g names hwf hinv
      · simp only [h2, if_false]
        apply ih _ _ (addVertexWithPhase_WF g _ _ hwf)
        intro p hp
        rcases List.mem_cons.mp hp with hh | hh
        · rw [hh]
          show (g.addVertexWithPhase (rhs.vertexType r) (rhs.phase r)).1.vertexType
            g.fresh ≠ VType.B
          rw [addVertexWithPhase_vertexType_fresh g _ _ hwf]
          exact h2
        · have hne := hinv p hh
          have hsome := present_of_vertexType_ne_B g p.2 hne
          have hmem : p.2 ∈ g.vertexList :=
            (alookup_isSome_iff_mem g.vdata p.2).mp hsome
          have hlt : p.2 < g.fresh := hwf.1 p.2 hmem
          rw [vertexType_congr (addVertexWithPhase_vdataFind_lt g _ _ p.2 hlt)]
          exact hne

/-! Reconnect-stage lemmas. -/

/-- Smart edge insertion never touches vertex data. -/
theorem addEdgeSmart_vdata (g : Graph) (u v : V) (ty : EType) :
    (g.addEdgeSmart u v ty).vdata = g.vdata := by
  unfold Graph.addEdgeSmart
  split
  · rfl
  · split
    · rfl
    · rfl

/-- Smart edge insertion never changes a vertex kind. -/
theorem addEdgeSmart_vertexType (g : Graph) (u v : V) (ty : EType) (w : V) :
    (g.addEdgeSmart u v ty).vertexType w = g.vertexType w := by
  apply vertexType_congr
  unfold Graph.vdataFind
  rw [addEdgeSmart_vdata]

/-- Smart edge insertion preserves any edge with an endpoint away from the
inserted pair. -/
theorem addEdgeSmart_edata_mem (g : Graph) (u v : V) (ty : EType)
    (a b : V) (t : EType) (h : (a, b, t) ∈ g.edata)
    (hside : (a ≠ u ∧ a ≠ v) ∨ (b ≠ u ∧ b ≠ v)) :
    (a, b, t) ∈ (g.addEdgeSmart u v ty).edata := by
  unfold Graph.addEdgeSmart
  split
  · exact List.mem_append_left _ h
  · split
    · unfold Graph.removeEdgesBetween
      simp only [List.mem_filter]
      refine ⟨h, ?_⟩
      simp only [decide_eq_true_eq]
      rcases hside with ⟨h1, h2⟩ | ⟨h1, h2⟩
      · push_neg
        constructor
        · intro hh
          exact absurd hh h1
        · intro hh
          exact absurd hh h2
      · push_neg
        constructor
        · intro hh hb
          exact absurd hb h2
        · intro hh hb
          exact absurd hb h1
    · exact h

/-- Smart insertion of a hadamard edge between interior vertices preserves the
edge-kind normal form. -/
theorem addEdgeSmart_NF (g : Graph) (u v : V) (hnf : g.NF)
    (hu : g.vertexType u ≠ VType.B) (hv : g.vertexType v ≠ VType.B) :
    (g.addEdgeSmart u v EType.H).NF := by
  intro e he
  rw [addEdgeSmart_vertexType, addEdgeSmart_vertexType]
  revert he
  unfold Graph.addEdgeSmart
  split
  · intro he
    rcases List.mem_append.mp he with he | he
    · exact hnf e he
    · simp at he
      subst he
      constructor
      · intro hB
        rcases hB with hB | hB
        · exact absurd hB hu
        · exact absurd hB hv
      · intro h1 h2
        rfl
  · split
    · intro he
      unfold Graph.removeEdgesBetween at he
      simp only [List.mem_filter] at he
      exact hnf e he.1
    · intro he
      exact hnf e he

/-- A successful reconnect never touches vertex data. -/
theorem reconnect_ok_vdata (names : List (V × V)) (es : List (V × V × EType))
    (g gf : Graph) (h : reconnect names es g = .ok gf) : gf.vdata = g.vdata := by
  induction es generalizing g with
  | nil =>
    cases h
    rfl
  | cons e rest ih =>
    obtain ⟨u, v, ty⟩ := e
    unfold reconnect at h
    cases hu : alookup u names with
    | none =>
      rw [hu] at h
      cases hv : alookup v names <;> rw [hv] at h <;> exact ih g h
    | some u' =>
      rw [hu] at h
      cases hv : alookup v names with
      | none =>
        rw [hv] at h
        exact ih g h
      | some v' =>
        rw [hv] at h
        by_cases hty : ty = EType.H
        · simp only [hty, if_true] at h
          rw [ih _ h]
          rw [addEdgeSmart_vdata]
        · simp only [hty, if_false] at h
          cases h

/-- A successful reconnect preserves every edge with an endpoint outside the
range of the vertex map. -/
theorem reconnect_ok_edata_mem (names : List (V × V)) (es : List (V × V × EType))
    (g gf : Graph) (h : reconnect names es g = .ok gf)
    (a b : V) (t : EType) (hm : (a, b, t) ∈ g.edata)
    (hside : a ∉ names.map (·.2) ∨ b ∉ names.map (·.2)) :
    (a, b, t) ∈ gf.edata := by
  induction es generalizing g with
  | nil =>
    cases h
    exact hm
  | cons e rest ih =>
    obtain ⟨u, v, ty⟩ := e
    unfold reconnect at h
    cases hu : alookup u names with
    | none =>
      rw [hu] at h
      cases hv : alookup v names <;> rw [hv] at h <;> exact ih g h hm
    | some u' =>
      rw [hu] at h
      cases hv : alookup v names with
      | none =>
        rw [hv] at h
        exact ih g h hm
      | some v' =>
        rw [hv] at h
        by_cases hty : ty = EType.H
        · simp only [hty, if_true] at h
          apply ih _ h
          apply addEdgeSmart_edata_mem g u' v' _ a b t hm
          have hu'mem : u' ∈ names.map (·.2) :=
            List.mem_map.mpr ⟨(u, u'), alookup_mem names u u' hu, rfl⟩
          have hv'mem : v' ∈ names.map (·.2) :=
            List.mem_map.mpr ⟨(v, v'), alookup_mem names v v' hv, rfl⟩
          rcases hside with hs | hs
          · left
            exact ⟨fun hh => hs (hh ▸ hu'mem), fun hh => hs (hh ▸ hv'mem)⟩
          · right
            exact ⟨fun hh => hs (hh ▸ hu'mem), fun hh => hs (hh ▸ hv'mem)⟩
        · simp only [hty, if_false] at h
          cases h

/-- A successful reconnect preserves the edge-kind normal form when every
mapped vertex has interior kind. -/
theorem reconnect_ok_NF (names : List (V × V)) (es : List (V × V × EType))
    (g gf : Graph) (h : reconnect names es g = .ok gf) (hnf : g.NF)
    (hinv : ∀ p ∈ names, g.vertexType p.2 ≠ VType.B) : gf.NF := by
  induction es generalizing g with
  | nil =>
    cases h
    exact hnf
  | cons e rest ih =>
    obtain ⟨u, v, ty⟩ := e
    unfold reconnect at h
    cases hu : alookup u names with
    | none =>
      rw [hu] at h
      cases hv : alookup v names <;> rw [hv] at h <;> exact ih g h hnf hinv
    | some u' =>
      rw [hu] at h
      cases hv : alookup v names with
      | none =>
        rw [hv] at h
        exact ih g h hnf hinv
      | some v' =>
        rw [hv] at h
        by_cases hty : ty = EType.H
        · simp only [hty, if_true] at h
          apply ih _ h
          · apply addEdgeSmart_NF g u' v' hnf
            · exact hinv (u, u') (alookup_mem names u u' hu)
            · exact hinv (v, v') (alookup_mem names v v' hv)
          · intro p hp
            rw [addEdgeSmart_vertexType]
            exact hinv p hp
        · simp only [hty, if_false] at h
          cases h

/-- Inversion of a successful mapped outcome. -/
theorem ROut.map_ok_inv {α β : Type} {y : ROut α} {f : α → β} {b : β}
    (h : y.map f = .ok b) : ∃ a, y = .ok a ∧ b = f a := by
  cases y with
  | ok a =>
    cases h
    exact ⟨a, rfl, rfl⟩
  | err e => cases h
  | panicked m => cases h

/-- Inversion of a successful bound outcome. -/
theorem ROut.bind_ok_inv {α β : Type} {y : ROut α} {f : α → ROut β} {b : β}
    (h : y.bind f = .ok b) : ∃ a, y = .ok a ∧ f a = .ok b := by
  cases y with
  | ok a => exact ⟨a, rfl, h⟩
  | err e => cases h
  | panicked m => cases h

/-! Assembly of the surgery pipeline. -/

/-- The state after the remove, splice and insert stages of apply_rewrite. -/
def surgeryState (rw : Rewrite) (g : Graph) : Graph × List (V × V) :=
  insertInternal rw.rhs rw.rhs.vertexList
    (spliceBoundary rw.rhs (rw.lhs_boundary.zip rw.rhs_boundary)
        (removeInternal g rw.lhs_internal),
      initNames (rw.lhs_boundary.zip rw.rhs_boundary))

/-- Unfolding of apply_rewrite in terms of the surgery pipeline. -/
theorem apply_rewrite_eq (rw : Rewrite) (g : Graph) :
    apply_rewrite rw g =
      (reconnect (surgeryState rw g).2 rw.rhs.edata (surgeryState rw g).1).map
        (fun gf => RewriteResult.mk gf defaultCostDelta) := rfl

/-- Both endpoints of a stored edge are neighbors of each other. -/
theorem mem_neighbors_right (g : Graph) (a b : V) (t : EType)
    (h : (a, b, t) ∈ g.edata) : b ∈ g.neighbors a := by
  unfold Graph.neighbors
  apply List.mem_filterMap.mpr
  refine ⟨(a, b, t), h, ?_⟩
  simp

/-- Both endpoints of a stored edge are neighbors of each other. -/
theorem mem_neighbors_left (g : Graph) (a b : V) (t : EType)
    (h : (a, b, t) ∈ g.edata) : a ∈ g.neighbors b := by
  unfold Graph.neighbors
  apply List.mem_filterMap.mpr
  refine ⟨(a, b, t), h, ?_⟩
  by_cases hab : a = b
  · subst hab
    simp
  · simp [hab]

/-- Every binding recorded by the boundary-splice bookkeeping pairs an RHS
boundary vertex with the spliced target vertex. -/
theorem initNames_aux (pairs : List (V × V)) (acc : List (V × V)) :
    ∀ p ∈ pairs.foldl (fun m lr => (lr.2, lr.1) :: m) acc,
      p ∈ acc ∨ (p.2, p.1) ∈ pairs := by
  induction pairs generalizing acc with
  | nil => exact fun p hp => Or.inl hp
  | cons q rest ih =>
    intro p hp
    rcases ih ((q.2, q.1) :: acc) p hp with hin | hin
    · rcases List.mem_cons.mp hin with hh | hh
      · right
        rw [hh]
        simp
      · exact Or.inl hh
    · right
      exact List.mem_cons_of_mem _ hin

/-- The values of the initial bindings are the spliced target vertices. -/
theorem initNames_val_mem (pairs : List (V × V)) (p : V × V)
    (hp : p ∈ initNames pairs) : p.2 ∈ pairs.map (·.1) := by
  rcases initNames_aux pairs [] p hp with hin | hin
  · simp at hin
  · exact List.mem_map.mpr ⟨(p.2, p.1), hin, rfl⟩

/-- The fresh counter entering the insert stage is the original one. -/
theorem preInsert_fresh (rw : Rewrite) (g : Graph) :
    (spliceBoundary rw.rhs (rw.lhs_boundary.zip rw.rhs_boundary)
      (removeInternal g rw.lhs_internal)).fresh = g.fresh := by
  rw [spliceBoundary_fresh, removeInternal_fresh]

/-! Claim C2. -/

/-- C2: rewrite application never alters any vertex or edge outside the
match's interior set and the spliced boundary set.  For any candidate rewrite
whose interior is closed in the target (every neighbor of an interior vertex
is again in the match, as the external matcher guarantees for its reported
matches), every edge with an endpoint outside the match survives with the
same kind and endpoints, and every vertex outside the match keeps its kind
and phase. -/
theorem apply_rewrite_frame (rw : Rewrite) (g : Graph) (res : RewriteResult)
    (hwf : g.WF)
    (hclosed : ∀ v ∈ rw.lhs_internal, ∀ w ∈ g.neighbors v,
      w ∈ rw.lhs_internal ∨ w ∈ rw.lhs_boundary)
    (hok : apply_rewrite rw g = .ok res) :
    (∀ a b t, (a, b, t) ∈ g.edata →
      ((a ∉ rw.lhs_internal ∧ a ∉ rw.lhs_boundary) ∨
        (b ∉ rw.lhs_internal ∧ b ∉ rw.lhs_boundary)) →
      (a, b, t) ∈ res.graph.edata) ∧
    (∀ w ∈ g.vertexList, w ∉ rw.lhs_internal → w ∉ rw.lhs_boundary →
      res.graph.vdataFind w = g.vdataFind w) := by
  rw [apply_rewrite_eq] at hok
  obtain ⟨gf, hrec, hres⟩ := ROut.map_ok_inv hok
  have hresg : res.graph = gf := by rw [hres]
  constructor
  · intro a b t hmem hside
    -- neither endpoint is interior
    have hbothout : a ∉ rw.lhs_internal ∧ b ∉ rw.lhs_internal := by
      rcases hside with ⟨hai, hab⟩ | ⟨hbi, hbb⟩
      · refine ⟨hai, fun hb => ?_⟩
        rcases hclosed b hb a (mem_neighbors_left g a b t hmem) with hh | hh
        · exact hai hh
        · exact hab hh
      · refine ⟨fun ha => ?_, hbi⟩
        rcases hclosed a ha b (mem_neighbors_right g a b t hmem) with hh | hh
        · exact hbi hh
        · exact hbb hh
    have h1 : (a, b, t) ∈ (removeInternal g rw.lhs_internal).edata :=
      removeInternal_edata_mem g _ a b t hmem hbothout.1 hbothout.2
    have h2 : (a, b, t) ∈ (surgeryState rw g).1.edata := by
      unfold surgeryState
      rw [insertInternal_edata, spliceBoundary_edata]
      exact h1
    -- the untouched endpoint avoids the vertex-map values
    have houtside : ∀ x, x ∉ rw.lhs_internal → x ∉ rw.lhs_boundary →
        x ∈ g.vertexList → x ∉ (surgeryState rw g).2.map (·.2) := by
      intro x hxi hxb hxV hxmem
      obtain ⟨p, hp, hpa⟩ := List.mem_map.mp hxmem
      rcases insertInternal_names_sub rw.rhs rw.rhs.vertexList _ _ p hp with hin | hge
      · have hpl := initNames_val_mem _ p hin
        obtain ⟨q, hq, hq1⟩ := List.mem_map.mp hpl
        have hqmem : q.1 ∈ rw.lhs_boundary ∧ q.2 ∈ rw.rhs_boundary :=
          List.of_mem_zip hq
        rw [hpa] at hq1
        rw [hq1] at hqmem
        exact hxb hqmem.1
      · rw [preInsert_fresh] at hge
        rw [hpa] at hge
        exact absurd (hwf.1 x hxV) (Nat.not_lt_of_le hge)
    rw [hresg]
    apply reconnect_ok_edata_mem _ _ _ _ hrec a b t h2
    rcases hside with ⟨hai, hab⟩ | ⟨hbi, hbb⟩
    · exact Or.inl (houtside a hai hab (hwf.2 _ hmem).1)
    · exact Or.inr (houtside b hbi hbb (hwf.2 _ hmem).2)
  · intro w hwV hwi hwb
    have hlt : w < g.fresh := hwf.1 w hwV
    have e1 : (removeInternal g rw.lhs_internal).vdataFind w = g.vdataFind w :=
      removeInternal_vdataFind g _ w hwi
    have e2 : (spliceBoundary rw.rhs (rw.lhs_boundary.zip rw.rhs_boundary)
        (removeInternal g rw.lhs_internal)).vdataFind w
        = (removeInternal g rw.lhs_internal).vdataFind w := by
      apply spliceBoundary_vdataFind_ne
      intro p hp hh
      have := (List.of_mem_zip hp).1
      rw [← hh] at this
      exact hwb this
    have e3 : (surgeryState rw g).1.vdataFind w
        = (spliceBoundary rw.rhs (rw.lhs_boundary.zip rw.rhs_boundary)
            (removeInternal g rw.lhs_internal)).vdataFind w := by
      unfold surgeryState
      apply insertInternal_vdataFind_lt
      rw [preInsert_fresh]
      exact hlt
    have e4 : gf.vdataFind w = (surgeryState rw g).1.vdataFind w := by
      unfold Graph.vdataFind
      rw [reconnect_ok_vdata _ _ _ _ hrec]
    rw [hresg, e4, e3, e2, e1]

/-- Witness for the C2 theorem: a concrete rewrite application preserving the
external plain edge at the input wire and the input boundary vertex. -/
theorem apply_rewrite_frame_witness :
    apply_rewrite exRewrite exGraph = .ok exApplied ∧
    (0, 1, EType.N) ∈ exApplied.graph.edata ∧
    exApplied.graph.vdataFind 0 = exGraph.vdataFind 0 := by
  refine ⟨by decide, ?_, ?_⟩
  · exact (apply_rewrite_frame exRewrite exGraph exApplied (by decide) (by decide)
      (by decide)).1 0 1 EType.N (by decide) (Or.inl ⟨by decide, by decide⟩)
  · exact (apply_rewrite_frame exRewrite exGraph exApplied (by decide) (by decide)
      (by decide)).2 0 (by decide) (by decide) (by decide)

/-! Claim C5. -/

/-- C5: rewrite application preserves the edge-kind normal form: when the
target diagram satisfies it, the spliced target vertices and the RHS boundary
vertices are interior spiders, the spliced vertices are not in the removed
interior, and the application succeeds (so the hadamard assert on every
inserted interior edge passed), the resulting diagram again has every
interior-interior edge hadamard and every boundary-touching edge plain. -/
theorem apply_rewrite_NF (rw : Rewrite) (g : Graph) (res : RewriteResult)
    (hwf : g.WF) (hnf : g.NF)
    (hbne : ∀ l ∈ rw.lhs_boundary, g.vertexType l ≠ VType.B)
    (hdisj : ∀ l ∈ rw.lhs_boundary, l ∉ rw.lhs_internal)
    (hrne : ∀ r ∈ rw.rhs_boundary, rw.rhs.vertexType r ≠ VType.B)
    (hok : apply_rewrite rw g = .ok res) :
    res.graph.NF := by
  rw [apply_rewrite_eq] at hok
  obtain ⟨gf, hrec, hres⟩ := ROut.map_ok_inv hok
  have hresg : res.graph = gf := by rw [hres]
  have hwf1 : (removeInternal g rw.lhs_internal).WF := removeInternal_WF g _ hwf
  have hnf1 : (removeInternal g rw.lhs_internal).NF := removeInternal_NF g _ hnf
  have hsp1 : ∀ p ∈ rw.lhs_boundary.zip rw.rhs_boundary,
      (removeInternal g rw.lhs_internal).vertexType p.1 ≠ VType.B := by
    intro p hp
    have hpb := (List.of_mem_zip hp).1
    rw [vertexType_congr (removeInternal_vdataFind g _ p.1 (hdisj p.1 hpb))]
    exact hbne p.1 hpb
  have hsp2 : ∀ p ∈ rw.lhs_boundary.zip rw.rhs_boundary,
      rw.rhs.vertexType p.2 ≠ VType.B :=
    fun p hp => hrne p.2 (List.of_mem_zip hp).2
  have hwf2 : (spliceBoundary rw.rhs (rw.lhs_boundary.zip rw.rhs_boundary)
      (removeInternal g rw.lhs_internal)).WF :=
    spliceBoundary_WF _ _ _ hwf1
  have hnf2 : (spliceBoundary rw.rhs (rw.lhs_boundary.zip rw.rhs_boundary)
      (removeInternal g rw.lhs_internal)).NF :=
    spliceBoundary_NF _ _ _ hnf1 hsp1 hsp2
  have hinv0 : ∀ p ∈ initNames (rw.lhs_boundary.zip rw.rhs_boundary),
      (spliceBoundary rw.rhs (rw.lhs_boundary.zip rw.rhs_boundary)
        (removeInternal g rw.lhs_internal)).vertexType p.2 ≠ VType.B := by
    intro p hp hB
    have hpl := initNames_val_mem _ p hp
    obtain ⟨q, hq, hq1⟩ := List.mem_map.mp hpl
    have hiff := spliceBoundary_B_iff rw.rhs (rw.lhs_boundary.zip rw.rhs_boundary)
      (removeInternal g rw.lhs_internal) hsp1 hsp2 p.2
    rw [← hq1] at hiff
    rw [← hq1] at hB
    exact hsp1 q hq (hiff.mp hB)
  have hnf3 : (surgeryState rw g).1.NF :=
    insertInternal_NF _ _ _ _ hwf2 hnf2
  have hinv : ∀ p ∈ (surgeryState rw g).2,
      (surgeryState rw g).1.vertexType p.2 ≠ VType.B :=
    insertInternal_inv _ _ _ _ hwf2 hinv0
  rw [hresg]
  exact reconnect_ok_NF _ _ _ _ hrec hnf3 hinv

/-- Witness for the C5 theorem: the concrete rewrite application keeps the
edge-kind normal form. -/
theorem apply_rewrite_NF_witness :
    exGraph.NF ∧ exApplied.graph.NF :=
  ⟨by decide, apply_rewrite_NF exRewrite exGraph exApplied (by decide) (by decide)
    (by decide) (by decide) (by decide) (by decide)⟩

/-! List-indexing facts used by the compilation lemmas. -/

/-- Positional indexing into a list (Vec indexing). -/
def lidx {α : Type} : List α → Nat → Option α
  | [], _ => none
  | a :: _, 0 => some a
  | _ :: l, n + 1 => lidx l n

/-- Indexing the empty list. -/
theorem lidx_nil {α : Type} (n : Nat) : lidx ([] : List α) n = none := by
  cases n <;> rfl

/-- Indexing inside the left part of an append. -/
theorem lidx_append_left {α : Type} (l1 l2 : List α) (n : Nat)
    (h : n < l1.length) : lidx (l1 ++ l2) n = lidx l1 n := by
  induction l1 generalizing n with
  | nil => simp at h
  | cons a rest ih =>
    cases n with
    | zero => rfl
    | succ m =>
      show lidx (rest ++ l2) m = lidx rest m
      exact ih m (Nat.lt_of_succ_lt_succ h)

/-- Indexing past the left part of an append. -/
theorem lidx_append_right {α : Type} (l1 l2 : List α) (n : Nat) :
    lidx (l1 ++ l2) (l1.length + n) = lidx l2 n := by
  induction l1 with
  | nil => simp [Nat.zero_add]
  | cons a rest ih =>
    show lidx (a :: (rest ++ l2)) (rest.length + 1 + n) = lidx l2 n
    rw [Nat.add_right_comm]
    exact ih

/-- A successful index is in bounds. -/
theorem lidx_lt_of_some {α : Type} (l : List α) (n : Nat) (a : α)
    (h : lidx l n = some a) : n < l.length := by
  induction l generalizing n with
  | nil => rw [lidx_nil] at h; cases h
  | cons b rest ih =>
    cases n with
    | zero => exact Nat.succ_pos _
    | succ m => exact Nat.succ_lt_succ (ih m h)

/-- Positional indexing agrees with the standard one. -/
theorem lidx_eq_getElem {α : Type} (l : List α) (n : Nat) : lidx l n = l[n]? := by
  induction l generalizing n with
  | nil => rw [lidx_nil]; simp
  | cons b rest ih =>
    cases n with
    | zero => simp [lidx]
    | succ m => simp [lidx, ih]

/-! Characterization of rule compilation. -/

/-- Total number of patterns registered for a list of rule sets: one per
boundary orientation of each set. -/
def totalPatterns (rules : List RewriteSet) : Nat :=
  (rules.map (fun rs => rs.lhs_ios.length)).sum

/-- Index of the first pattern registered for the rule set at position i. -/
def patternOffset (rules : List RewriteSet) (i : Nat) : Nat :=
  totalPatterns (rules.take i)

/-- The orientation loop of from_rewrite_rules registers exactly one pattern
per orientation, in order, each carrying the instantiated LHS, its
certificate and the shared boundary, and maps its identifier to the rule
set's RHS group. -/
theorem compileOris_ok {C : Type} (f : Graph → Option C) (lhsD : DecodedGraph)
    (bnd : List V) (rhs_idx : Nat) :
    ∀ (ios : List RewriteIos) (pats pats' : List (CausalPattern C))
      (mp mp' : List (Nat × Nat)),
    compileOris f lhsD bnd rhs_idx ios pats mp = .ok (pats', mp') →
    (∀ k x, alookup k mp = some x → k < pats.length) →
    pats'.length = pats.length + ios.length ∧
    (∀ k, k < pats.length → lidx pats' k = lidx pats k) ∧
    (∀ j io, lidx ios j = some io → ∃ ins outs fl,
      io.translated lhsD = .ok (ins, outs) ∧
      f ((lhsD.g.setInputs ins).setOutputs outs) = some fl ∧
      lidx pats' (pats.length + j) =
        some ⟨(lhsD.g.setInputs ins).setOutputs outs, fl, bnd⟩ ∧
      alookup (pats.length + j) mp' = some rhs_idx) ∧
    (∀ k x, alookup k mp = some x → alookup k mp' = some x) ∧
    (∀ k x, alookup k mp' = some x → k < pats.length + ios.length) := by
  intro ios
  induction ios with
  | nil =>
    intro pats pats' mp mp' h hK
    cases h
    refine ⟨by simp, fun k hk => rfl, ?_, fun k x hx => hx, fun k x hx => by
      simpa using hK k x hx⟩
    intro j io hio
    rw [lidx_nil] at hio
    cases hio
  | cons io rest ih =>
    intro pats pats' mp mp' h hK
    unfold compileOris at h
    obtain ⟨inouts, htr, hrest0⟩ := ROut.bind_ok_inv h
    obtain ⟨ins, outs⟩ := inouts
    have hrest1 : (match f ((lhsD.g.setInputs ins).setOutputs outs) with
        | none => (ROut.panicked "invalid causal flow in pattern" :
            ROut (List (CausalPattern C) × List (Nat × Nat)))
        | some fl => compileOris f lhsD bnd rhs_idx rest
            (pats ++ [CausalPattern.mk ((lhsD.g.setInputs ins).setOutputs outs) fl bnd])
            ((pats.length, rhs_idx) :: mp)) = .ok (pats', mp') := hrest0
    cases hf : f ((lhsD.g.setInputs ins).setOutputs outs) with
    | none =>
      rw [hf] at hrest1
      exact ROut.noConfusion hrest1
    | some fl =>
      rw [hf] at hrest1
      have hrest : compileOris f lhsD bnd rhs_idx rest
          (pats ++ [CausalPattern.mk ((lhsD.g.setInputs ins).setOutputs outs) fl bnd])
          ((pats.length, rhs_idx) :: mp) = .ok (pats', mp') := hrest1
      have hK' : ∀ k x,
          alookup k ((pats.length, rhs_idx) :: mp) = some x →
          k < (pats ++ [(⟨(lhsD.g.setInputs ins).setOutputs outs, fl, bnd⟩ :
            CausalPattern C)]).length := by
        intro k x hx
        rw [alookup_cons] at hx
        by_cases hk : pats.length = k
        · rw [← hk]
          simp
        · rw [if_neg hk] at hx
          have := hK k x hx
          simp
          omega
      obtain ⟨o1, o2, o3, o4, o5⟩ := ih (pats ++ [⟨_, fl, bnd⟩]) pats'
        ((pats.length, rhs_idx) :: mp) mp' hrest hK'
      refine ⟨?_, ?_, ?_, ?_, ?_⟩
      · rw [o1]
        simp
        omega
      · intro k hk
        rw [o2 k (by simp; omega), lidx_append_left _ _ _ hk]
      · intro j io' hio'
        cases j with
        | zero =>
          cases hio'
          refine ⟨ins, outs, fl, htr, hf, ?_, ?_⟩
          · rw [o2 (pats.length + 0) (by simp)]
            rw [show pats.length + 0 = pats.length + 0 from rfl]
            simpa using (lidx_append_right pats
              [(⟨(lhsD.g.setInputs ins).setOutputs outs, fl, bnd⟩ : CausalPattern C)] 0)
          · apply o4
            rw [alookup_cons]
            simp
        | succ m =>
          obtain ⟨ins', outs', fl', h1, h2, h3, h4⟩ := o3 m io' hio'
          refine ⟨ins', outs', fl', h1, h2, ?_, ?_⟩
          · rw [show pats.length + (m + 1) = (pats ++
              [(⟨(lhsD.g.setInputs ins).setOutputs outs, fl, bnd⟩ :
                CausalPattern C)]).length + m by simp; omega]
            exact h3
          · rw [show pats.length + (m + 1) = (pats ++
              [(⟨(lhsD.g.setInputs ins).setOutputs outs, fl, bnd⟩ :
                CausalPattern C)]).length + m by simp; omega]
            exact h4
      · intro k x hx
        apply o4
        rw [alookup_cons]
        have hlt := hK k x hx
        rw [if_neg (by omega)]
        exact hx
      · intro k x hx
        have := o5 k x hx
        simp at this
        simp
        omega

/-- Unfolding of the pattern count over a cons. -/
theorem totalPatterns_cons (rs : RewriteSet) (rest : List RewriteSet) :
    totalPatterns (rs :: rest) = rs.lhs_ios.length + totalPatterns rest := by
  simp [totalPatterns]

/-- Unfolding of the pattern offset over a cons. -/
theorem patternOffset_cons_succ (rs : RewriteSet) (rest : List RewriteSet) (i : Nat) :
    patternOffset (rs :: rest) (i + 1) = rs.lhs_ios.length + patternOffset rest i := by
  simp [patternOffset, totalPatterns]

/-- The rule-set loop of from_rewrite_rules: under success, the accumulated
rewriter contains the given RHS groups in order, one pattern per (rule set,
orientation) pair at its offset, and the pattern-to-RHS-group mapping. -/
theorem compileSets_ok {C : Type} (f : Graph → Option C) :
    ∀ (rules : List RewriteSet) (pats : List (CausalPattern C))
      (mp : List (Nat × Nat)) (ar : List (List RewriteRhs)) (rw : CausalRewriter C),
    compileSets f rules pats mp ar = .ok rw →
    (∀ k x, alookup k mp = some x → k < pats.length) →
    rw.all_rhs = ar ++ rules.map (fun rs => rs.rhss) ∧
    rw.matcher.patterns.length = pats.length + totalPatterns rules ∧
    (∀ k, k < pats.length → lidx rw.matcher.patterns k = lidx pats k) ∧
    (∀ k x, alookup k mp = some x → alookup k rw.lhs_to_rhs = some x) ∧
    (∀ i rs, lidx rules i = some rs → ∀ j io, lidx rs.lhs_ios j = some io →
      ∃ ins outs fl bnd,
        boundaryList rs.lhs.g = .ok bnd ∧
        io.translated rs.lhs = .ok (ins, outs) ∧
        f ((rs.lhs.g.setInputs ins).setOutputs outs) = some fl ∧
        lidx rw.matcher.patterns (pats.length + patternOffset rules i + j) =
          some ⟨(rs.lhs.g.setInputs ins).setOutputs outs, fl, bnd⟩ ∧
        alookup (pats.length + patternOffset rules i + j) rw.lhs_to_rhs =
          some (ar.length + i)) := by
  intro rules
  induction rules with
  | nil =>
    intro pats mp ar rw h hK
    cases h
    refine ⟨by simp, by simp [totalPatterns], fun k hk => rfl, fun k x hx => hx, ?_⟩
    intro i rs hrs
    rw [lidx_nil] at hrs
    cases hrs
  | cons rs rest ih =>
    intro pats mp ar rw h hK
    unfold compileSets at h
    obtain ⟨bnd, hbnd, h2⟩ := ROut.bind_ok_inv h
    obtain ⟨pm, hco, h3⟩ := ROut.bind_ok_inv h2
    obtain ⟨pats1, mp1⟩ := pm
    obtain ⟨o1, o2, o3, o4, o5⟩ :=
      compileOris_ok f rs.lhs bnd ar.length rs.lhs_ios pats pats1 mp mp1 hco hK
    have hK1 : ∀ k x, alookup k mp1 = some x → k < pats1.length := by
      intro k x hx
      rw [o1]
      exact o5 k x hx
    obtain ⟨s1, s2, s3, s4, s5⟩ := ih pats1 mp1 (ar ++ [rs.rhss]) rw h3 hK1
    refine ⟨?_, ?_, ?_, ?_, ?_⟩
    · rw [s1]
      simp
    · rw [s2, o1, totalPatterns_cons]
      omega
    · intro k hk
      rw [s3 k (by omega), o2 k hk]
    · intro k x hx
      exact s4 k x (o4 k x hx)
    · intro i rsi hrsi j io hio
      cases i with
      | zero =>
        cases hrsi
        obtain ⟨ins, outs, fl, ht, hf, hp, hm⟩ := o3 j io hio
        have hj : j < rs.lhs_ios.length := lidx_lt_of_some _ _ _ hio
        refine ⟨ins, outs, fl, bnd, hbnd, ht, hf, ?_, ?_⟩
        · have hidx : pats.length + patternOffset (rs :: rest) 0 + j = pats.length + j := by
            simp [patternOffset, totalPatterns]
          rw [hidx, s3 (pats.length + j) (by omega)]
          exact hp
        · have hidx : pats.length + patternOffset (rs :: rest) 0 + j = pats.length + j := by
            simp [patternOffset, totalPatterns]
          rw [hidx]
          have := s4 _ _ hm
          rw [this]
          simp
      | succ i' =>
        obtain ⟨ins, outs, fl, bnd', ha, hb, hc, hd, he⟩ := s5 i' rsi hrsi j io hio
        refine ⟨ins, outs, fl, bnd', ha, hb, hc, ?_, ?_⟩
        · rw [show pats.length + patternOffset (rs :: rest) (i' + 1) + j =
            pats1.length + patternOffset rest i' + j from by
              rw [patternOffset_cons_succ]; omega]
          exact hd
        · rw [show pats.length + patternOffset (rs :: rest) (i' + 1) + j =
            pats1.length + patternOffset rest i' + j from by
              rw [patternOffset_cons_succ]; omega]
          rw [he]
          simp
          omega

/-- Indexing a mapped list. -/
theorem lidx_map {α β : Type} (f : α → β) (l : List α) (n : Nat) :
    lidx (l.map f) n = (lidx l n).map f := by
  induction l generalizing n with
  | nil =>
    simp only [List.map_nil, lidx_nil]
    rfl
  | cons a rest ih =>
    cases n with
    | zero => rfl
    | succ m => exact ih m

/-- An in-bounds index yields an element. -/
theorem lidx_some_of_lt {α : Type} (l : List α) (n : Nat) (h : n < l.length) :
    ∃ a, lidx l n = some a := by
  induction l generalizing n with
  | nil => simp at h
  | cons a rest ih =>
    cases n with
    | zero => exact ⟨a, rfl⟩
    | succ m => exact ih m (Nat.lt_of_succ_lt_succ h)

/-- An indexed element is a member. -/
theorem lidx_mem {α : Type} (l : List α) (n : Nat) (a : α)
    (h : lidx l n = some a) : a ∈ l := by
  induction l generalizing n with
  | nil => rw [lidx_nil] at h; cases h
  | cons b rest ih =>
    cases n with
    | zero =>
      cases h
      simp
    | succ m => exact List.mem_cons_of_mem _ (ih m h)

/-- Full characterization of a successful from_rewrite_rules: the compiled
rewriter holds one pattern per (rule set, boundary orientation) pair, in rule
then orientation order; the pattern at index patternOffset rules i + j is the
LHS diagram of rule set i instantiated with orientation j, together with its
causal-flow certificate and the LHS boundary order; and get_rhs at that
pattern identifier returns exactly rule set i's RHS alternatives. -/
theorem from_rewrite_rules_ok_spec {C : Type} (f : Graph → Option C)
    (rules : List RewriteSet) (rw : CausalRewriter C)
    (h : from_rewrite_rules f rules = .ok rw) :
    rw.matcher.patterns.length = totalPatterns rules ∧
    rw.all_rhs = rules.map (fun rs => rs.rhss) ∧
    (∀ i rs, lidx rules i = some rs → ∀ j io, lidx rs.lhs_ios j = some io →
      ∃ ins outs fl bnd,
        boundaryList rs.lhs.g = .ok bnd ∧
        io.translated rs.lhs = .ok (ins, outs) ∧
        f ((rs.lhs.g.setInputs ins).setOutputs outs) = some fl ∧
        lidx rw.matcher.patterns (patternOffset rules i + j) =
          some ⟨(rs.lhs.g.setInputs ins).setOutputs outs, fl, bnd⟩ ∧
        get_rhs rw (patternOffset rules i + j) = .ok rs.rhss) := by
  obtain ⟨s1, s2, s3, s4, s5⟩ := compileSets_ok f rules [] [] [] rw h
    (by intro k x hx; cases hx)
  refine ⟨by simpa using s2, by simpa using s1, ?_⟩
  intro i rs hrs j io hio
  obtain ⟨ins, outs, fl, bnd, ha, hb, hc, hd, he⟩ := s5 i rs hrs j io hio
  refine ⟨ins, outs, fl, bnd, ha, hb, hc, by simpa using hd, ?_⟩
  unfold get_rhs
  have he' : alookup (patternOffset rules i + j) rw.lhs_to_rhs = some i := by
    simpa using he
  rw [he']
  have hval : rw.all_rhs[i]? = some rs.rhss := by
    rw [show rw.all_rhs = rules.map (fun rs => rs.rhss) from by simpa using s1]
    rw [← lidx_eq_getElem, lidx_map, hrs]
    rfl
  show (match rw.all_rhs[i]? with
    | none => (ROut.panicked "index out of bounds in all_rhs" : ROut (List RewriteRhs))
    | some l => ROut.ok l) = ROut.ok rs.rhss
  rw [hval]

/-- Every pattern identifier below the total count comes from exactly one
(rule set, orientation) pair. -/
theorem pattern_index_decompose :
    ∀ (rules : List RewriteSet) (k : Nat), k < totalPatterns rules →
    ∃ i rs j, lidx rules i = some rs ∧ j < rs.lhs_ios.length ∧
      k = patternOffset rules i + j := by
  intro rules
  induction rules with
  | nil =>
    intro k hk
    simp [totalPatterns] at hk
  | cons rs rest ih =>
    intro k hk
    rw [totalPatterns_cons] at hk
    by_cases hlt : k < rs.lhs_ios.length
    · exact ⟨0, rs, k, rfl, hlt, by simp [patternOffset, totalPatterns]⟩
    · obtain ⟨i, rs', j, h1, h2, h3⟩ := ih (k - rs.lhs_ios.length) (by omega)
      refine ⟨i + 1, rs', j, h1, h2, ?_⟩
      rw [patternOffset_cons_succ]
      omega

/-- The per-match loop succeeds when every RHS boundary has the match's
boundary length. -/
theorem rhsToRewrites_ok (m : PMatch) :
    ∀ (rhss : List RewriteRhs),
    (∀ rhs ∈ rhss, ∃ br, boundaryList rhs.g.g = .ok br ∧
      m.boundary.length = br.length) →
    ∃ l, rhsToRewrites m rhss = .ok l := by
  intro rhss
  induction rhss with
  | nil => exact fun _ => ⟨[], rfl⟩
  | cons rhs rest ih =>
    intro h
    obtain ⟨br, hbr, hlen⟩ := h rhs (by simp)
    obtain ⟨l, hl⟩ := ih (fun r hr => h r (by simp [hr]))
    refine ⟨⟨m.boundary, br, m.internal, rhs.g.g⟩ :: l, ?_⟩
    unfold rhsToRewrites
    rw [hbr]
    simp only [ROut.bind]
    rw [if_pos hlen, hl]
    rfl

/-- The match loop succeeds when every match has a registered RHS group whose
boundaries all have the match's boundary length. -/
theorem matchesToRewrites_ok {C : Type} (rw : CausalRewriter C) :
    ∀ (ms : List PMatch),
    (∀ m ∈ ms, ∃ rhss, get_rhs rw m.pattern_id = .ok rhss ∧
      ∀ rhs ∈ rhss, ∃ br, boundaryList rhs.g.g = .ok br ∧
        m.boundary.length = br.length) →
    ∃ l, matchesToRewrites rw ms = .ok l := by
  intro ms
  induction ms with
  | nil => exact fun _ => ⟨[], rfl⟩
  | cons m rest ih =>
    intro h
    obtain ⟨rhss, hget, hbr⟩ := h m (by simp)
    obtain ⟨l1, hl1⟩ := rhsToRewrites_ok m rhss hbr
    obtain ⟨l2, hl2⟩ := ih (fun m' hm' => h m' (by simp [hm']))
    refine ⟨l1 ++ l2, ?_⟩
    unfold matchesToRewrites
    rw [hget]
    simp only [ROut.bind]
    rw [hl1]
    simp only [ROut.bind]
    rw [hl2]
    rfl

/-! Claim C9. -/

/-- C9: from_rewrite_rules registers exactly one pattern per (rule set,
boundary orientation) pair — the LHS graph with that orientation's
input/output lists set, its causal-flow certificate, and the LHS boundary
order — and get_rhs at any such pattern identifier returns exactly the RHS
list of the rule set the pattern came from. -/
theorem from_rewrite_rules_registers_patterns {C : Type} (f : Graph → Option C)
    (rules : List RewriteSet) (rw : CausalRewriter C)
    (h : from_rewrite_rules f rules = .ok rw) :
    rw.matcher.patterns.length = totalPatterns rules ∧
    (∀ i rs, lidx rules i = some rs → ∀ j io, lidx rs.lhs_ios j = some io →
      ∃ ins outs fl bnd,
        boundaryList rs.lhs.g = .ok bnd ∧
        io.translated rs.lhs = .ok (ins, outs) ∧
        f ((rs.lhs.g.setInputs ins).setOutputs outs) = some fl ∧
        lidx rw.matcher.patterns (patternOffset rules i + j) =
          some ⟨(rs.lhs.g.setInputs ins).setOutputs outs, fl, bnd⟩ ∧
        get_rhs rw (patternOffset rules i + j) = .ok rs.rhss) :=
  ⟨(from_rewrite_rules_ok_spec f rules rw h).1,
    (from_rewrite_rules_ok_spec f rules rw h).2.2⟩

/-- A flow computation that certifies every diagram (trivial certificate). -/
def constFlow : Graph → Option Unit := fun _ => some ()

/-- The compiled rewriter obtained from the example rule set. -/
def exCompiled : CausalRewriter Unit :=
  ⟨⟨[⟨{ exRhsGraph with inputs := [0], outputs := [3] }, (), [1, 2]⟩]⟩,
    [(0, 0)], [[]]⟩

/-- Witness for the C9 theorem at a concrete rule set. -/
theorem from_rewrite_rules_registers_patterns_witness :
    from_rewrite_rules constFlow [exRuleSet] = .ok exCompiled ∧
    exCompiled.matcher.patterns.length = totalPatterns [exRuleSet] :=
  ⟨by decide, (from_rewrite_rules_registers_patterns constFlow [exRuleSet]
    exCompiled (by decide)).1⟩

/-! Claim C4. -/

/-- C4: for a compiled rule set whose LHS and RHS boundary counts agree for
every RHS alternative, and a matcher that reports boundaries of the length of
the registered pattern's boundary, the equal-length assertion in get_rewrites
never fails: candidate generation returns normally. -/
theorem get_rewrites_assert_ok {C : Type} (f : Graph → Option C)
    (finder : Graph → C → List PMatch) (rules : List RewriteSet)
    (rw : CausalRewriter C) (g : Graph) (fl : C)
    (hcomp : from_rewrite_rules f rules = .ok rw)
    (harity : ∀ rs ∈ rules, ∀ rhs ∈ rs.rhss, ∃ bl br,
      boundaryList rs.lhs.g = .ok bl ∧ boundaryList rhs.g.g = .ok br ∧
      br.length = bl.length)
    (hflow : f g = some fl)
    (hmatcher : ∀ m ∈ finder g fl, ∃ p,
      lidx rw.matcher.patterns m.pattern_id = some p ∧
      m.boundary.length = p.boundary.length) :
    ∃ l, get_rewrites f finder rw g = .ok l := by
  obtain ⟨hlen, hrhss, hper⟩ := from_rewrite_rules_ok_spec f rules rw hcomp
  unfold get_rewrites
  rw [hflow]
  apply matchesToRewrites_ok
  intro m hm
  obtain ⟨p, hp, hlenb⟩ := hmatcher m hm
  have hpid : m.pattern_id < totalPatterns rules := by
    have := lidx_lt_of_some _ _ _ hp
    rw [hlen] at this
    exact this
  obtain ⟨i, rs, j, hrs, hj, hk⟩ := pattern_index_decompose rules m.pattern_id hpid
  obtain ⟨io, hio⟩ := lidx_some_of_lt _ _ hj
  obtain ⟨ins, outs, fl', bnd, hbnd, htr, hfp, hpat, hget⟩ := hper i rs hrs j io hio
  refine ⟨rs.rhss, by rw [hk]; exact hget, ?_⟩
  intro rhs hrhs
  obtain ⟨bl, br, hbl, hbr, hbrlen⟩ := harity rs (lidx_mem _ _ _ hrs) rhs hrhs
  rw [hk] at hp
  rw [hp] at hpat
  have hpeq : p = ⟨(rs.lhs.g.setInputs ins).setOutputs outs, fl', bnd⟩ :=
    Option.some_injective _ hpat
  have hbndbl : bnd = bl := by
    rw [hbnd] at hbl
    cases hbl
    rfl
  refine ⟨br, hbr, ?_⟩
  rw [hlenb, hpeq]
  show bnd.length = br.length
  rw [hbndbl, hbrlen]

/-- A matcher reporting one fixed match of the registered pattern. -/
def oneMatchFinder : Graph → Unit → List PMatch := fun _ _ => [⟨0, [1, 2], []⟩]

/-- Witness for the C4 theorem at a concrete rule set, matcher and target. -/
theorem get_rewrites_assert_ok_witness :
    ∃ l, get_rewrites constFlow oneMatchFinder exCompiled exGraph = .ok l := by
  apply get_rewrites_assert_ok constFlow oneMatchFinder [exRuleSet] exCompiled
    exGraph () (by decide)
  · intro rs hrs rhs hrhs
    rw [List.mem_singleton] at hrs
    subst hrs
    simp [exRuleSet] at hrhs
  · rfl
  · intro m hm
    simp only [oneMatchFinder, List.mem_singleton] at hm
    subst hm
    exact ⟨⟨{ exRhsGraph with inputs := [0], outputs := [3] }, (), [1, 2]⟩,
      by decide, by decide⟩

/-! Claim C8: the decoded-diagram codec, modelled from the spec. -/

/-- Modelled from the spec: an embedded diagram document (the serializable
form produced by the external JSON codec): named vertices with kind and
phase, edges by name, and ordered input/output name lists. -/
structure EncodedDoc where
  verts : List (String × VType × Phase)
  edges : List (String × String × EType)
  ins : List String
  outs : List String
deriving DecidableEq, Repr

/-- Name of a vertex under the name table (first entry with that index). -/
def encodeName (d : DecodedGraph) (v : V) : String :=
  ((d.names.find? (fun p => p.2 = v)).map (fun p => p.1)).getD ""

/-- Modelled from the spec: encode regenerates a serializable document from
current indices, naming every vertex through the name table. -/
def encode (d : DecodedGraph) : EncodedDoc :=
  ⟨d.g.vdata.map (fun e => (encodeName d e.1, e.2.1, e.2.2)),
    d.g.edata.map (fun e => (encodeName d e.1, encodeName d e.2.1, e.2.2)),
    d.g.inputs.map (encodeName d),
    d.g.outputs.map (encodeName d)⟩

/-- Vertex store of a decoded document: dense indices in document order. -/
def decodeVerts : Nat → List (String × VType × Phase) → List (V × VType × Phase)
  | _, [] => []
  | i, e :: rest => (i, e.2.1, e.2.2) :: decodeVerts (i + 1) rest

/-- Name table of a decoded document: each document name maps to its
positional index. -/
def decodeNames : Nat → List (String × VType × Phase) → List (String × V)
  | _, [] => []
  | i, e :: rest => (e.1, i) :: decodeNames (i + 1) rest

/-- Index assigned to a document name by decoding (0 for an unknown name). -/
def decodeName (doc : EncodedDoc) (n : String) : V :=
  (((decodeNames 0 doc.verts).find? (fun p => p.1 = n)).map (fun p => p.2)).getD 0

/-- Modelled from the spec: decode builds a diagram with fresh dense indices
from a document, translating edge and input/output names through the decoded
name table; every vertex gets a unique name mapping to exactly one vertex. -/
def decode (doc : EncodedDoc) : DecodedGraph :=
  ⟨⟨decodeVerts 0 doc.verts,
    doc.edges.map (fun e => (decodeName doc e.1, decodeName doc e.2.1, e.2.2)),
    doc.ins.map (decodeName doc),
    doc.outs.map (decodeName doc),
    doc.verts.length⟩,
    decodeNames 0 doc.verts⟩

/-- Position of a vertex in a key list. -/
def keyIdx : List V → V → Nat
  | [], _ => 0
  | w :: rest, v => if w = v then 0 else keyIdx rest v + 1

/-- At the position of a member, indexing returns it. -/
theorem lidx_keyIdx (keys : List V) (v : V) (hv : v ∈ keys) :
    lidx keys (keyIdx keys v) = some v := by
  induction keys with
  | nil => simp at hv
  | cons w rest ih =>
    by_cases hw : w = v
    · subst hw
      show lidx (w :: rest) (if w = w then 0 else keyIdx rest w + 1) = some w
      rw [if_pos rfl]
      rfl
    · have hvr : v ∈ rest := by
        rcases List.mem_cons.mp hv with hh | hh
        · exact absurd hh.symm hw
        · exact hh
      show lidx (w :: rest) (if w = v then 0 else keyIdx rest v + 1) = some v
      rw [if_neg hw]
      exact ih hvr

/-- The position function is injective on members. -/
theorem keyIdx_inj (keys : List V) (u w : V) (hu : u ∈ keys) (hw : w ∈ keys)
    (h : keyIdx keys u = keyIdx keys w) : u = w := by
  have h1 := lidx_keyIdx keys u hu
  have h2 := lidx_keyIdx keys w hw
  rw [h] at h1
  rw [h1] at h2
  exact Option.some_injective _ h2

/-- On a duplicate-free key list, the position of the element at an index is
that index. -/
theorem keyIdx_lidx (keys : List V) (hnodup : keys.Nodup) (k : Nat) (v : V)
    (h : lidx keys k = some v) : keyIdx keys v = k := by
  induction keys generalizing k with
  | nil => rw [lidx_nil] at h; cases h
  | cons w rest ih =>
    obtain ⟨hnotin, hnodup'⟩ := List.nodup_cons.mp hnodup
    cases k with
    | zero =>
      cases h
      simp [keyIdx]
    | succ m =>
      have hvr : v ∈ rest := lidx_mem rest m v h
      have hne : w ≠ v := fun hh => hnotin (hh ▸ hvr)
      show (if w = v then 0 else keyIdx rest v + 1) = m + 1
      rw [if_neg hne, ih hnodup' m h]

/-- Decoding the vertex store of an encoded diagram relabels each vertex to
its position. -/
theorem decodeVerts_map (enc : V → String) :
    ∀ (l : List (V × VType × Phase)) (i : Nat) (φ : V → Nat),
    (∀ k e, lidx l k = some e → φ e.1 = i + k) →
    decodeVerts i (l.map (fun e => (enc e.1, e.2.1, e.2.2))) =
      l.map (fun e => (φ e.1, e.2.1, e.2.2)) := by
  intro l
  induction l with
  | nil => intro i φ h; rfl
  | cons e rest ih =>
    intro i φ h
    show (i, e.2.1, e.2.2) :: decodeVerts (i + 1) (rest.map _) =
      (φ e.1, e.2.1, e.2.2) :: rest.map _
    have h0 : φ e.1 = i := by
      have := h 0 e rfl
      omega
    rw [ih (i + 1) φ (fun k e' hk => by have := h (k + 1) e' hk; omega), h0]

/-- Searching the value of a present index in a name table. -/
theorem find_value_exists (names : List (String × V)) (v : V)
    (h : v ∈ names.map (fun p => p.2)) :
    ∃ n, names.find? (fun p => p.2 = v) = some (n, v) := by
  induction names with
  | nil => simp at h
  | cons e rest ih =>
    obtain ⟨n0, v0⟩ := e
    by_cases he : v0 = v
    · subst he
      exact ⟨n0, by rw [List.find?_cons_of_pos _ (by simp)]⟩
    · have hr : v ∈ rest.map (fun p => p.2) := by
        simp at h
        rcases h with hh | hh
        · exact absurd hh.symm he
        · simpa using hh
      obtain ⟨n, hn⟩ := ih hr
      exact ⟨n, by rw [List.find?_cons_of_neg _ (by simp [he]), hn]⟩

/-- In a name table with duplicate-free names, a name determines its index. -/
theorem nodup_keys_value_eq (names : List (String × V))
    (hnodup : (names.map (fun p => p.1)).Nodup) (n : String) (a b : V)
    (ha : (n, a) ∈ names) (hb : (n, b) ∈ names) : a = b := by
  induction names with
  | nil => simp at ha
  | cons e rest ih =>
    obtain ⟨n0, v0⟩ := e
    rw [List.map_cons, List.nodup_cons] at hnodup
    obtain ⟨hnotin, hnodup'⟩ := hnodup
    rcases List.mem_cons.mp ha with h1 | h1 <;> rcases List.mem_cons.mp hb with h2 | h2
    · injection h1 with hn1 hv1
      injection h2 with hn2 hv2
      rw [hv1, hv2]
    · injection h1 with hn1 hv1
      exfalso
      apply hnotin
      show n0 ∈ rest.map (fun p => p.1)
      rw [← hn1]
      exact List.mem_map.mpr ⟨(n, b), h2, rfl⟩
    · injection h2 with hn2 hv2
      exfalso
      apply hnotin
      show n0 ∈ rest.map (fun p => p.1)
      rw [← hn2]
      exact List.mem_map.mpr ⟨(n, a), h1, rfl⟩
    · exact ih hnodup' h1 h2

/-- The encoded name of a vertex named by the table is injective on named
vertices. -/
theorem encodeName_inj (d : DecodedGraph)
    (hnames1 : (d.names.map (fun p => p.1)).Nodup) (u w : V)
    (hu : u ∈ d.names.map (fun p => p.2)) (hw : w ∈ d.names.map (fun p => p.2))
    (h : encodeName d u = encodeName d w) : u = w := by
  obtain ⟨n1, h1⟩ := find_value_exists d.names u hu
  obtain ⟨n2, h2⟩ := find_value_exists d.names w hw
  have e1 : encodeName d u = n1 := by unfold encodeName; rw [h1]; rfl
  have e2 : encodeName d w = n2 := by unfold encodeName; rw [h2]; rfl
  have hnn : n1 = n2 := by rw [← e1, ← e2, h]
  have m1 := List.mem_of_find?_eq_some h1
  have m2 := List.mem_of_find?_eq_some h2
  subst hnn
  exact nodup_keys_value_eq d.names hnames1 n1 u w m1 m2

/-- Unfolding of the position function over a cons. -/
theorem keyIdx_cons (w : V) (rest : List V) (v : V) :
    keyIdx (w :: rest) v = if w = v then 0 else keyIdx rest v + 1 := rfl

/-- Looking a named vertex up in the decoded name table finds its position. -/
theorem decodeNames_find (enc : V → String) :
    ∀ (l : List (V × VType × Phase)) (i : Nat) (v : V),
    v ∈ l.map (fun e => e.1) →
    (∀ e ∈ l, enc e.1 = enc v → e.1 = v) →
    (decodeNames i (l.map (fun e => (enc e.1, e.2.1, e.2.2)))).find?
        (fun p => p.1 = enc v) =
      some (enc v, i + keyIdx (l.map (fun e => e.1)) v) := by
  intro l
  induction l with
  | nil =>
    intro i v hv _
    simp at hv
  | cons e rest ih =>
    intro i v hv hinj
    show ((enc e.1, i) :: decodeNames (i + 1) (rest.map _)).find?
      (fun p => p.1 = enc v) = _
    by_cases he : e.1 = v
    · rw [List.find?_cons_of_pos _ (by simp [he])]
      simp only [List.map_cons, keyIdx_cons, if_pos he, Nat.add_zero]
      rw [he]
    · have hne : ¬ (enc e.1 = enc v) := fun hh => he (hinj e (by simp) hh)
      rw [List.find?_cons_of_neg _ (by simp [hne])]
      have hvr : v ∈ rest.map (fun e => e.1) := by
        simp only [List.map_cons, List.mem_cons] at hv
        rcases hv with hh | hh
        · exact absurd hh.symm he
        · exact hh
      rw [ih (i + 1) v hvr (fun e' he' hh => hinj e' (by simp [he']) hh)]
      simp only [List.map_cons, keyIdx_cons, if_neg he]
      rw [show i + (keyIdx (rest.map (fun e => e.1)) v + 1) =
        i + 1 + keyIdx (rest.map (fun e => e.1)) v from by omega]

/-- Decoding the encoded name of a table-named vertex yields its position. -/
theorem decodeName_encodeName (d : DecodedGraph)
    (hnodup : d.g.vertexList.Nodup)
    (hnames1 : (d.names.map (fun p => p.1)).Nodup)
    (hcover : ∀ v ∈ d.g.vertexList, v ∈ d.names.map (fun p => p.2))
    (v : V) (hv : v ∈ d.g.vertexList) :
    decodeName (encode d) (encodeName d v) = keyIdx d.g.vertexList v := by
  have hinj : ∀ e ∈ d.g.vdata, encodeName d e.1 = encodeName d v → e.1 = v := by
    intro e he hh
    apply encodeName_inj d hnames1 e.1 v ?_ (hcover v hv) hh
    exact hcover e.1 (List.mem_map.mpr ⟨e, he, rfl⟩)
  have hfind := decodeNames_find (encodeName d) d.g.vdata 0 v hv hinj
  unfold decodeName
  rw [show (encode d).verts =
    d.g.vdata.map (fun e => (encodeName d e.1, e.2.1, e.2.2)) from rfl]
  rw [hfind]
  show 0 + keyIdx (d.g.vdata.map (fun e => e.1)) v = keyIdx d.g.vertexList v
  rw [Nat.zero_add]
  rfl

/-- C8: decoding the encoding of a diagram with a proper name table yields a
diagram isomorphic to it: the position relabeling reproduces the vertex
kinds and phases, the edge list with kinds, and the input/output orders,
and is injective on vertices; vertex indices and names themselves need not
be stable. -/
theorem decode_encode_iso (d : DecodedGraph)
    (hnodup : d.g.vertexList.Nodup)
    (hnames1 : (d.names.map (fun p => p.1)).Nodup)
    (hcover : ∀ v ∈ d.g.vertexList, v ∈ d.names.map (fun p => p.2))
    (hedges : ∀ e ∈ d.g.edata, e.1 ∈ d.g.vertexList ∧ e.2.1 ∈ d.g.vertexList)
    (hins : ∀ v ∈ d.g.inputs, v ∈ d.g.vertexList)
    (houts : ∀ v ∈ d.g.outputs, v ∈ d.g.vertexList) :
    (decode (encode d)).g.vdata =
      d.g.vdata.map (fun e => (keyIdx d.g.vertexList e.1, e.2.1, e.2.2)) ∧
    (decode (encode d)).g.edata =
      d.g.edata.map (fun e =>
        (keyIdx d.g.vertexList e.1, keyIdx d.g.vertexList e.2.1, e.2.2)) ∧
    (decode (encode d)).g.inputs = d.g.inputs.map (keyIdx d.g.vertexList) ∧
    (decode (encode d)).g.outputs = d.g.outputs.map (keyIdx d.g.vertexList) ∧
    (∀ u ∈ d.g.vertexList, ∀ w ∈ d.g.vertexList,
      keyIdx d.g.vertexList u = keyIdx d.g.vertexList w → u = w) := by
  refine ⟨?_, ?_, ?_, ?_, fun u hu w hw h => keyIdx_inj _ u w hu hw h⟩
  · show decodeVerts 0 (encode d).verts = _
    rw [show (encode d).verts =
      d.g.vdata.map (fun e => (encodeName d e.1, e.2.1, e.2.2)) from rfl]
    apply decodeVerts_map
    intro k e hk
    have hkeys : lidx d.g.vertexList k = some e.1 := by
      unfold Graph.vertexList
      rw [lidx_map, hk]
      rfl
    have := keyIdx_lidx d.g.vertexList hnodup k e.1 hkeys
    omega
  · show (encode d).edges.map
      (fun e => (decodeName (encode d) e.1, decodeName (encode d) e.2.1, e.2.2)) = _
    rw [show (encode d).edges = d.g.edata.map
      (fun e => (encodeName d e.1, encodeName d e.2.1, e.2.2)) from rfl]
    rw [List.map_map]
    apply List.map_congr_left
    intro e he
    show (decodeName (encode d) (encodeName d e.1),
      decodeName (encode d) (encodeName d e.2.1), e.2.2) = _
    rw [decodeName_encodeName d hnodup hnames1 hcover e.1 (hedges e he).1,
      decodeName_encodeName d hnodup hnames1 hcover e.2.1 (hedges e he).2]
  · show (encode d).ins.map (decodeName (encode d)) = _
    rw [show (encode d).ins = d.g.inputs.map (encodeName d) from rfl]
    rw [List.map_map]
    apply List.map_congr_left
    intro v hv
    show decodeName (encode d) (encodeName d v) = _
    rw [decodeName_encodeName d hnodup hnames1 hcover v (hins v hv)]
  · show (encode d).outs.map (decodeName (encode d)) = _
    rw [show (encode d).outs = d.g.outputs.map (encodeName d) from rfl]
    rw [List.map_map]
    apply List.map_congr_left
    intro v hv
    show decodeName (encode d) (encodeName d v) = _
    rw [decodeName_encodeName d hnodup hnames1 hcover v (houts v hv)]

/-- The example replacement diagram with a proper name table. -/
def exDecoded : DecodedGraph :=
  ⟨exRhsGraph, [("a", 0), ("b", 1), ("c", 2), ("d", 3)]⟩

/-- Witness for the C8 theorem at a concrete decoded diagram. -/
theorem decode_encode_iso_witness :
    (decode (encode exDecoded)).g.vdata =
      exDecoded.g.vdata.map
        (fun e => (keyIdx exDecoded.g.vertexList e.1, e.2.1, e.2.2)) ∧
    (decode (encode exDecoded)).g.inputs =
      exDecoded.g.inputs.map (keyIdx exDecoded.g.vertexList) :=
  ⟨(decode_encode_iso exDecoded (by decide) (by decide) (by decide) (by decide)
      (by decide) (by decide)).1,
    (decode_encode_iso exDecoded (by decide) (by decide) (by decide) (by decide)
      (by decide) (by decide)).2.2.1⟩
